import Mathlib

/-!
Verification development for the GitLab repository analyzer
(`gitlab_analyzer`): a shallow embedding, over `List Char` strings and
association-list dictionaries, of the code that the analyzed properties
are about, together with theorems settling each property.

Python dictionaries are embedded as association lists in insertion order
(updates keep the position of an existing key, new keys are appended),
matching CPython's ordered-dict semantics.  Python string operations are
embedded as structurally recursive functions over `List Char`.
-/

namespace GitlabAnalyzer

/-! ## Python primitives: dictionaries and strings -/

/-- `d.get(k, dflt)` on an association-list dictionary. -/
def dictGetD {β : Type} (d : List (String × β)) (k : String) (dflt : β) : β :=
  match d.find? (fun kv => kv.1 = k) with
  | some kv => kv.2
  | none => dflt

/-- `k in d` for a dictionary. -/
def dictHasKey {β : Type} (d : List (String × β)) (k : String) : Bool :=
  (d.find? (fun kv => kv.1 = k)).isSome

/-- `d[k] = v`: update in place if `k` is present (keeping its position),
append otherwise — CPython dict insertion semantics. -/
def dictSet {β : Type} : List (String × β) → String → β → List (String × β)
  | [], k, v => [(k, v)]
  | (k', v') :: rest, k, v =>
    if k' = k then (k, v) :: rest else (k', v') :: dictSet rest k v

/-- Python `pat in text` substring test on character lists. -/
def strContains : List Char → List Char → Bool
  | t, p => if p.isPrefixOf t then true else
    match t with
    | [] => false
    | _ :: rest => strContains rest p

/-- Python `s.startswith(p)`. -/
def strStartsWith (t p : List Char) : Bool := p.isPrefixOf t

/-- `str.lower` for the ASCII range (all strings in this development are
ASCII). -/
def lowerChar (c : Char) : Char :=
  if 'A' ≤ c ∧ c ≤ 'Z' then Char.ofNat (c.toNat + 32) else c

/-- Python `s.lower()`. -/
def strLower (t : List Char) : List Char := t.map lowerChar

/-- Python truthiness of an optional string (`None` and `""` are falsy). -/
def truthyStr : Option String → Bool
  | none => false
  | some s => s ≠ ""

/-! ## Repository record (`core/repository.py`)

`Repository.__init__` builds the record with empty finding containers;
`add_technology`, `add_api_endpoint` and `add_dependency` are its mutators.
A technology observation is stored by the source as a Python dict with the
reserved keys `name`/`confidence`/`detected_in`/`version`, into which the
optional `details` dict is merged; every call site in the repository passes
`details` keys (only `matches`) disjoint from the reserved ones, so the
embedding carries `details` as the separate `extra` bag of the observation.
Confidence, a Python float in `[0, 1]`, is embedded as `ℚ`: only order
comparisons and copies are performed on it. -/

/-- One technology observation (one element of `self.technologies[category]`). -/
structure Tech where
  name : String
  confidence : ℚ
  detected_in : String
  version : Option String
  extra : List (String × String)
  deriving DecidableEq, Repr

/-- One recorded API endpoint (one element of `self.apis`). -/
structure ApiEndpoint where
  path : String
  method : String
  source_file : String
  description : String
  deriving DecidableEq, Repr

/-- One stored documentation entry: `{'content': ..., 'path': ...}` as built
by `Repository.add_documentation`; the content payload (free-form dict) is
carried as an opaque string. -/
structure DocEntry where
  content : String
  path : String
  deriving DecidableEq, Repr

/-- What `Repository.__init__` reads off the fetched GitLab project. -/
structure ProjectDetails where
  id : Nat
  name : String
  path_with_namespace : String
  default_branch : Option String
  web_url : String
  deriving DecidableEq, Repr

/-- The `Repository` record: identity fields plus the finding containers
(the `documentation` dict's four fixed keys are carried as four fields; the
`stats` dict's `total_files`/`analyzed_files` counters likewise). -/
structure Repo where
  id : Nat
  name : String
  path : String
  default_branch : String
  web_url : String
  scanned : Bool
  analyzed_files : List String
  technologies : List (String × List Tech)
  apis : List ApiEndpoint
  dependencies : List (String × List String)
  readme : Option DocEntry
  api_docs : List DocEntry
  setup_instructions : List DocEntry
  architecture : List DocEntry
  total_files : Nat
  analyzed_files_count : Nat
  deriving DecidableEq, Repr

/-- `Repository.__init__`: identity from the project (`default_branch or
'main'`, with Python falsiness for the empty string), empty containers, the
five fixed technology categories, the three fixed dependency kinds. -/
def initRepo (p : ProjectDetails) : Repo :=
  { id := p.id
    name := p.name
    path := p.path_with_namespace
    default_branch := match p.default_branch with
      | some s => if s = "" then "main" else s
      | none => "main"
    web_url := p.web_url
    scanned := false
    analyzed_files := []
    technologies :=
      [("frontend", []), ("backend", []), ("database", []),
       ("infrastructure", []), ("cicd", [])]
    apis := []
    dependencies := [("imports", []), ("services", []), ("repositories", [])]
    readme := none
    api_docs := []
    setup_instructions := []
    architecture := []
    total_files := 0
    analyzed_files_count := 0 }

/-- `dict.update(details)` on the `extra` bag. -/
def extraUpdate (old : List (String × String)) (details : List (String × String)) :
    List (String × String) :=
  details.foldl (fun d kv => dictSet d kv.1 kv.2) old

/-- The merge loop of `Repository.add_technology`: find the first existing
observation with the given name; if found, update it in place exactly when the
new confidence is strictly greater (`if confidence > existing['confidence']`),
overwriting `detected_in` with `path or existing`, `version` only `if version:`
is truthy, and merging `details` only `if details:` is nonempty.  Returns
`none` when no observation with that name exists. -/
def mergeTech (name : String) (confidence : ℚ) (version : Option String)
    (path : Option String) (details : List (String × String)) :
    List Tech → Option (List Tech)
  | [] => none
  | t :: ts =>
    if t.name = name then
      some ((if t.confidence < confidence then
        { t with
          confidence := confidence
          detected_in := if truthyStr path then path.getD "" else t.detected_in
          version := if truthyStr version then version else t.version
          extra := if details ≠ [] then extraUpdate t.extra details else t.extra }
        else t) :: ts)
    else
      (mergeTech name confidence version path details ts).map (t :: ·)

/-- `Repository.add_technology`. -/
def add_technology (r : Repo) (category name : String) (confidence : ℚ)
    (version : Option String) (path : Option String)
    (details : List (String × String)) : Repo :=
  let techs0 := if dictHasKey r.technologies category then r.technologies
                else dictSet r.technologies category []
  let existing := dictGetD techs0 category []
  let newTech : Tech :=
    { name := name
      confidence := confidence
      detected_in := if truthyStr path then path.getD "" else ""
      version := version
      extra := details }
  match mergeTech name confidence version path details existing with
  | some updated => { r with technologies := dictSet techs0 category updated }
  | none => { r with technologies := dictSet techs0 category (existing ++ [newTech]) }

/-- `Repository.add_api_endpoint`. -/
def add_api_endpoint (r : Repo) (path method source_file : String)
    (description : Option String) : Repo :=
  { r with apis := r.apis ++
      [{ path := path, method := method, source_file := source_file
         description := description.getD "" }] }

/-- `Repository.add_dependency`: ensure the kind exists, then append the name
if it is not already present (dedup by exact string equality). -/
def add_dependency (r : Repo) (dep_type name : String) : Repo :=
  let deps0 := if dictHasKey r.dependencies dep_type then r.dependencies
               else dictSet r.dependencies dep_type []
  let cur := dictGetD deps0 dep_type []
  { r with dependencies :=
      if name ∈ cur then deps0 else dictSet deps0 dep_type (cur ++ [name]) }

/-! ## C3: the add-technology merge rule -/

/-- One recorded call to `add_technology`. -/
structure AddTechCall where
  category : String
  name : String
  confidence : ℚ
  version : Option String
  path : Option String
  details : List (String × String)

/-- Replay a sequence of `add_technology` calls on a record. -/
def applyAddTech (r : Repo) (calls : List AddTechCall) : Repo :=
  calls.foldl (fun r c =>
    add_technology r c.category c.name c.confidence c.version c.path c.details) r

/-- The observations stored for one category. -/
def techsOf (r : Repo) (category : String) : List Tech :=
  dictGetD r.technologies category []

/-- The at-most-one-per-(category, name) invariant of the technology table. -/
def techNamesNodup (r : Repo) : Prop :=
  ∀ cat ts, (cat, ts) ∈ r.technologies → (ts.map Tech.name).Nodup

theorem mergeTech_names (name : String) (confidence : ℚ) (version : Option String)
    (path : Option String) (details : List (String × String)) :
    ∀ ts ts', mergeTech name confidence version path details ts = some ts' →
      ts'.map Tech.name = ts.map Tech.name := by
  intro ts
  induction ts with
  | nil => intro ts' h; simp [mergeTech] at h
  | cons t rest ih =>
    intro ts' h
    by_cases hn : t.name = name
    · simp only [mergeTech, hn, if_true, Option.some.injEq] at h
      subst h
      by_cases hc : t.confidence < confidence <;> simp [hc, hn]
    · simp only [mergeTech, hn, if_false, Option.map_eq_some'] at h
      obtain ⟨ts'', h1, h2⟩ := h
      subst h2
      simp [ih ts'' h1]

theorem mergeTech_none (name : String) (confidence : ℚ) (version : Option String)
    (path : Option String) (details : List (String × String)) :
    ∀ ts, mergeTech name confidence version path details ts = none →
      name ∉ ts.map Tech.name := by
  intro ts
  induction ts with
  | nil => intro _; simp
  | cons t rest ih =>
    intro h
    by_cases hn : t.name = name
    · simp [mergeTech, hn] at h
    · simp only [mergeTech, hn, if_false, Option.map_eq_none'] at h
      simp only [List.map_cons, List.mem_cons]
      rintro (h1 | h2)
      · exact hn h1.symm
      · exact ih h h2

theorem dictSet_mem {β : Type} (d : List (String × β)) (k : String) (v : β) :
    ∀ k' v', (k', v') ∈ dictSet d k v → (k' = k ∧ v' = v) ∨ (k', v') ∈ d := by
  induction d with
  | nil => intro k' v' h; simp [dictSet] at h; exact Or.inl h
  | cons kv rest ih =>
    intro k' v' h
    by_cases he : kv.1 = k
    · simp only [dictSet, he, if_true, List.mem_cons] at h
      rcases h with h | h
      · exact Or.inl (by simpa using h)
      · exact Or.inr (List.mem_cons_of_mem _ h)
    · simp only [dictSet, he, if_false, List.mem_cons] at h
      rcases h with h | h
      · exact Or.inr (h ▸ List.mem_cons_self _ _)
      · rcases ih k' v' h with h' | h'
        · exact Or.inl h'
        · exact Or.inr (List.mem_cons_of_mem _ h')

theorem add_technology_nodup (r : Repo) (category name : String) (confidence : ℚ)
    (version : Option String) (path : Option String)
    (details : List (String × String)) (h : techNamesNodup r) :
    techNamesNodup (add_technology r category name confidence version path details) := by
  intro cat ts hmem
  have htechs0 : ∀ c l,
      (c, l) ∈ (if dictHasKey r.technologies category then r.technologies
                 else dictSet r.technologies category []) →
      (l.map Tech.name).Nodup := by
    intro c l hl
    by_cases hk : dictHasKey r.technologies category
    · rw [if_pos hk] at hl; exact h c l hl
    · rw [if_neg hk] at hl
      rcases dictSet_mem _ _ _ _ _ hl with ⟨_, h2⟩ | h2
      · subst h2; simp
      · exact h c l h2
  set techs0 := if dictHasKey r.technologies category then r.technologies
                else dictSet r.technologies category [] with htechs0def
  have hexisting : ((dictGetD techs0 category []).map Tech.name).Nodup := by
    unfold dictGetD
    cases hf : techs0.find? (fun kv => kv.1 = category) with
    | none => simp
    | some kv =>
      have := List.find?_some hf
      have hmem' := List.mem_of_find?_eq_some hf
      exact htechs0 kv.1 kv.2 hmem'
  unfold add_technology at hmem
  simp only at hmem
  rw [← htechs0def] at hmem
  cases hm : mergeTech name confidence version path details (dictGetD techs0 category []) with
  | some updated =>
    rw [hm] at hmem
    simp only at hmem
    rcases dictSet_mem _ _ _ _ _ hmem with ⟨_, h2⟩ | h2
    · subst h2
      rw [mergeTech_names name confidence version path details _ _ hm]
      exact hexisting
    · exact htechs0 cat ts h2
  | none =>
    rw [hm] at hmem
    simp only at hmem
    rcases dictSet_mem _ _ _ _ _ hmem with ⟨_, h2⟩ | h2
    · subst h2
      have hnotin := mergeTech_none name confidence version path details _ hm
      simp only [List.map_append, List.map_cons, List.map_nil]
      rw [List.nodup_append]
      refine ⟨hexisting, List.nodup_singleton _, ?_⟩
      intro a ha hb
      simp only [List.mem_singleton] at hb
      subst hb
      exact hnotin ha
    · exact htechs0 cat ts h2

/-- First stored observation with a given name in a category. -/
def findTech (r : Repo) (category name : String) : Option Tech :=
  (techsOf r category).find? (fun t => t.name = name)

/-- Counterexample to C3 as stated: two observations for `("backend", "x")`
with **equal** confidence; the claim says the second call's `version` wins on
equal confidence, but the source updates only on strictly greater confidence,
so the first version `"1"` is kept. -/
def c3_r1 : Repo :=
  add_technology (initRepo ⟨1, "r", "g/r", some "main", "u"⟩) "backend" "x" 1 (some "1") none []

def c3_r2 : Repo :=
  add_technology c3_r1 "backend" "x" 1 (some "2") none []

theorem dictGetD_dictSet {β : Type} (d : List (String × β)) (k : String) (v : β)
    (dflt : β) : dictGetD (dictSet d k v) k dflt = v := by
  induction d with
  | nil => simp [dictSet, dictGetD, List.find?]
  | cons kv rest ih =>
    by_cases he : kv.1 = k
    · simp [dictSet, he, dictGetD, List.find?]
    · simp only [dictSet, he, if_false]
      unfold dictGetD at ih ⊢
      rw [List.find?_cons_of_neg _ (by simpa using he)]
      exact ih

/-- The merge written as a function of the existing observation, straight from
the body of the `confidence > existing['confidence']` branch. -/
def mergedTech (t : Tech) (confidence : ℚ) (version : Option String)
    (path : Option String) (details : List (String × String)) : Tech :=
  if t.confidence < confidence then
    { t with
      confidence := confidence
      detected_in := if truthyStr path then path.getD "" else t.detected_in
      version := if truthyStr version then version else t.version
      extra := if details ≠ [] then extraUpdate t.extra details else t.extra }
  else t

theorem mergedTech_name (t : Tech) (confidence : ℚ) (version : Option String)
    (path : Option String) (details : List (String × String)) :
    (mergedTech t confidence version path details).name = t.name := by
  unfold mergedTech
  by_cases hc : t.confidence < confidence <;> simp [hc]

theorem mergeTech_find (name : String) (confidence : ℚ) (version : Option String)
    (path : Option String) (details : List (String × String)) :
    ∀ ts t, ts.find? (fun t => t.name = name) = some t →
      ∃ ts', mergeTech name confidence version path details ts = some ts' ∧
        ts'.find? (fun t => t.name = name) =
          some (mergedTech t confidence version path details) := by
  intro ts
  induction ts with
  | nil => intro t h; simp at h
  | cons t' rest ih =>
    intro t h
    by_cases hn : t'.name = name
    · rw [List.find?_cons_of_pos _ (by simpa using hn)] at h
      injection h with h; subst h
      refine ⟨mergedTech t' confidence version path details :: rest, ?_, ?_⟩
      · simp [mergeTech, hn, mergedTech]
      · exact List.find?_cons_of_pos _ (by simpa using (mergedTech_name _ _ _ _ _).trans hn)
    · rw [List.find?_cons_of_neg _ (by simpa using hn)] at h
      obtain ⟨ts'', h1, h2⟩ := ih t h
      refine ⟨t' :: ts'', ?_, ?_⟩
      · simp [mergeTech, hn, h1]
      · rw [List.find?_cons_of_neg _ (by simpa using hn)]
        exact h2

theorem applyAddTech_nodup_aux (calls : List AddTechCall) :
    ∀ r : Repo, techNamesNodup r → techNamesNodup (applyAddTech r calls) := by
  induction calls with
  | nil => intro r h; exact h
  | cons c rest ih =>
    intro r h
    show techNamesNodup ((c :: rest).foldl _ r)
    rw [List.foldl_cons]
    exact ih _ (add_technology_nodup _ _ _ _ _ _ _ h)

/-- C3 amended, part 1: starting from a fresh record, any sequence of
`add_technology` calls leaves at most one observation per `(category, name)`
pair. -/
theorem applyAddTech_nodup (p : ProjectDetails) (calls : List AddTechCall) :
    techNamesNodup (applyAddTech (initRepo p) calls) := by
  apply applyAddTech_nodup_aux
  intro cat ts h
  simp only [initRepo, List.mem_cons, List.mem_singleton, Prod.mk.injEq,
    List.not_mem_nil, or_false] at h
  rcases h with ⟨-, rfl⟩ | ⟨-, rfl⟩ | ⟨-, rfl⟩ | ⟨-, rfl⟩ | ⟨-, rfl⟩ <;> simp

/-- C3 amended, part 2: a second observation for an existing `(category, name)`
merges into the first; the stored observation becomes `mergedTech`, i.e. it is
rewritten (keeping the higher confidence, overwriting `detected_in`/`version`/
`extra` subject to their truthiness guards) exactly when the new confidence is
strictly greater, and is left untouched otherwise — in particular on equal
confidence. -/
theorem add_technology_merges (r : Repo) (cat name : String) (conf : ℚ)
    (v p : Option String) (d : List (String × String)) (t : Tech)
    (h : findTech r cat name = some t) :
    findTech (add_technology r cat name conf v p d) cat name =
      some (mergedTech t conf v p d) ∧
    (mergedTech t conf v p d).confidence = max t.confidence conf := by
  have hkey : dictHasKey r.technologies cat = true := by
    unfold findTech techsOf dictGetD at h
    unfold dictHasKey
    cases hf : r.technologies.find? (fun kv => kv.1 = cat) with
    | some kv => simp [hf]
    | none => rw [hf] at h; simp at h
  unfold findTech techsOf at h
  obtain ⟨ts', h1, h2⟩ := mergeTech_find name conf v p d _ t h
  constructor
  · unfold add_technology
    simp only [hkey, if_true, h1]
    unfold findTech techsOf
    rw [dictGetD_dictSet]
    exact h2
  · unfold mergedTech
    by_cases hc : t.confidence < conf
    · simp [hc, max_eq_right (le_of_lt hc)]
    · simp [hc, max_eq_left (not_lt.mp hc)]

/-- C3 (amended): for every repository record, category and technology name,
after any sequence of add-technology calls there is at most one observation per
`(category, name)` pair, and a second observation for an existing name merges
into the first keeping the higher confidence — but `version`/`extra` (and
`detected_in`) are overwritten only when the new confidence is **strictly
greater** than the existing one (and `version` only when the new version is
truthy); on equal confidence the stored observation is left untouched. -/
theorem c3_merge_rule :
    (∀ (p : ProjectDetails) (calls : List AddTechCall),
      techNamesNodup (applyAddTech (initRepo p) calls)) ∧
    (∀ (r : Repo) (cat name : String) (conf : ℚ) (v p : Option String)
      (d : List (String × String)) (t : Tech),
      findTech r cat name = some t →
      findTech (add_technology r cat name conf v p d) cat name =
        some (mergedTech t conf v p d) ∧
      (mergedTech t conf v p d).confidence = max t.confidence conf) :=
  ⟨applyAddTech_nodup, fun r cat name conf v p d t h =>
    add_technology_merges r cat name conf v p d t h⟩

/-- Witness for C3: the merge rule applied at a concrete record, discharging
the `findTech … = some t` hypothesis by evaluation. -/
theorem c3_merge_rule_witness :
    findTech (add_technology c3_r1 "backend" "x" 2 (some "9") none []) "backend" "x" =
      some { name := "x", confidence := 2, detected_in := "", version := some "9",
             extra := [] } := by
  have h := (c3_merge_rule.2 c3_r1 "backend" "x" 2 (some "9") none []
    { name := "x", confidence := 1, detected_in := "", version := some "1",
      extra := [] } (by decide)).1
  rw [h]
  decide

theorem c3_counterexample :
    findTech c3_r2 "backend" "x" =
      some { name := "x", confidence := 1, detected_in := "", version := some "1",
             extra := [] } ∧
    ¬ (findTech c3_r2 "backend" "x").map Tech.version = some (some "2") := by
  constructor
  · decide
  · decide

/-! ## C4: configuration consumption by the orchestrator

`Config.get` (`config.py`) is `self.config.get(section, {}).get(key, default)`
— two plain dictionary lookups, no validation.  The scanner
(`scanner.py`, `GitLabScanner.scan`) computes
`max_workers = min(config.get('scanning', 'concurrent_scans', 5), len(projects))`
and reads `timeout_seconds` the same way.  The 1–20 / 10–300 clamping exists
only in the CLI menu (`cli/menu.py`), applied when a user types a new value:
`max(1, min(20, int(new_concurrency)))`, `max(10, min(300, int(new_timeout)))`.
The integer-valued part of the configuration is embedded here. -/

/-- `Config.get(section, key, default)`. -/
def configGet {α : Type} (config : List (String × List (String × α)))
    (sec key : String) (dflt : α) : α :=
  dictGetD (dictGetD config sec []) key dflt

/-- `GitLabScanner.scan` line 117: the effective worker-pool size. -/
def effective_max_workers (config : List (String × List (String × Int)))
    (numProjects : Nat) : Int :=
  min (configGet config "scanning" "concurrent_scans" 5) (numProjects : Int)

/-- `GitLabScanner.scan` line 118: the timeout value handed to `_scan_project`. -/
def effective_timeout_seconds (config : List (String × List (String × Int))) : Int :=
  configGet config "scanning" "timeout_seconds" 30

/-- `cli/menu.py` line 376: clamping applied to user-typed concurrency. -/
def menuClampConcurrent (x : Int) : Int := max 1 (min 20 x)

/-- `cli/menu.py` line 383: clamping applied to a user-typed timeout. -/
def menuClampTimeout (x : Int) : Int := max 10 (min 300 x)

/-- A configuration whose scanning section stores the given raw values. -/
def scanningConfig (concurrent timeoutSec : Int) : List (String × List (String × Int)) :=
  [("scanning", [("concurrent_scans", concurrent), ("timeout_seconds", timeoutSec)])]

/-- Counterexample to C4 as stated: with `concurrent_scans` stored as 25 and
30 repository handles, the orchestrator's pool size is 25, not the
`min(clamped 20, 30) = 20` the claim requires — `Config.get` performs no
clamping. -/
theorem c4_counterexample :
    effective_max_workers (scanningConfig 25 30) 30 = 25 ∧
    min (menuClampConcurrent 25) (30 : Int) = 20 ∧ (25 : Int) ≠ 20 := by
  refine ⟨?_, by decide, by decide⟩
  decide

/-- C4 (amended): the orchestrator consumes `concurrent_scans` and
`timeout_seconds` exactly as stored — `Config.get` performs no clamping — and
the effective worker-pool size is `min(stored concurrent_scans, N)` for every
stored value; the 1–20 clamp lives only in the CLI menu's input handler, so the
pool size agrees with the claimed clamped form only when the stored value
already lies in 1–20. -/
theorem c4_no_clamping (x t : Int) (numProjects : Nat) :
    effective_max_workers (scanningConfig x t) numProjects = min x numProjects ∧
    effective_timeout_seconds (scanningConfig x t) = t ∧
    (1 ≤ x → x ≤ 20 →
      min x (numProjects : Int) = min (menuClampConcurrent x) (numProjects : Int)) := by
  refine ⟨rfl, rfl, ?_⟩
  intro h1 h2
  unfold menuClampConcurrent
  omega

/-- Witness for C4: the amended statement evaluated at stored value 5 with
3 handles, discharging the 1–20 range hypotheses. -/
theorem c4_no_clamping_witness :
    effective_max_workers (scanningConfig 5 30) 3 = min 5 3 ∧
    min (5 : Int) ((3 : Nat) : Int) = min (menuClampConcurrent 5) ((3 : Nat) : Int) := by
  have h := c4_no_clamping 5 30 3
  exact ⟨h.1, h.2.2 (by decide) (by decide)⟩

/-! ## C10: HTTP-method detection for a matched endpoint
(`analyzers/connection.py`, `_extract_api_endpoints` lines 143–154)

The method recorded for a match is chosen by case-insensitive substring tests
on the whole matched text `match.group(0)`, in the fixed order
POST, PUT, DELETE, PATCH, defaulting to GET. -/

/-- The inline method-sniffing chain of `_extract_api_endpoints`. -/
def detect_method (matchedText : String) : String :=
  let lower := strLower matchedText.data
  if strContains lower "post".data then "POST"
  else if strContains lower "put".data then "PUT"
  else if strContains lower "delete".data then "DELETE"
  else if strContains lower "patch".data then "PATCH"
  else "GET"

/-- C10: the recorded method follows the fixed precedence POST, PUT, DELETE,
PATCH with default GET, each a case-insensitive substring test on the matched
text; consequently a delete route whose matched text contains `output` (which
contains `put`) records PUT, not DELETE. -/
theorem c10_method_precedence :
    (∀ s : String,
      (strContains (strLower s.data) "post".data = true →
        detect_method s = "POST") ∧
      (strContains (strLower s.data) "post".data = false →
        strContains (strLower s.data) "put".data = true →
        detect_method s = "PUT") ∧
      (strContains (strLower s.data) "post".data = false →
        strContains (strLower s.data) "put".data = false →
        strContains (strLower s.data) "delete".data = true →
        detect_method s = "DELETE") ∧
      (strContains (strLower s.data) "post".data = false →
        strContains (strLower s.data) "put".data = false →
        strContains (strLower s.data) "delete".data = false →
        strContains (strLower s.data) "patch".data = true →
        detect_method s = "PATCH") ∧
      (strContains (strLower s.data) "post".data = false →
        strContains (strLower s.data) "put".data = false →
        strContains (strLower s.data) "delete".data = false →
        strContains (strLower s.data) "patch".data = false →
        detect_method s = "GET")) ∧
    detect_method "app.delete(/output" = "PUT" ∧
    strContains (strLower "app.delete(/output".data) "delete".data = true := by
  refine ⟨?_, by decide, by decide⟩
  intro s
  refine ⟨fun h1 => ?_, fun h1 h2 => ?_, fun h1 h2 h3 => ?_,
    fun h1 h2 h3 h4 => ?_, fun h1 h2 h3 h4 => ?_⟩ <;>
    simp [detect_method, h1] <;> simp [h2] <;> simp [h3] <;> simp [h4]

/-- Witness for C10: the precedence clauses applied at a concrete matched
text, discharging the substring hypotheses by evaluation. -/
theorem c10_method_precedence_witness : detect_method "app.put(/x" = "PUT" :=
  (c10_method_precedence.1 "app.put(/x").2.1 (by decide) (by decide)

/-! ## Path normalization (`analyzers/connection.py`, `_normalize_path`)

The source, in order: `path.rstrip('/')`; if `'://' in path` then
`path = '/' + '/'.join(path.split('/')[3:])`; then the three substitutions
`re.sub(r':[^/]+', ':param')`, `re.sub(r'<[^>]+>', ':param')`,
`re.sub(r'\x7b[^\x7d]+\x7d', ':param')`.  Each regex substitution is embedded
as a two-mode scanner: normal mode emits characters (or the replacement when a
match starts), skip mode drops the remainder of a match, exactly the leftmost
non-overlapping semantics of `re.sub`. -/

/-- `path.rstrip('/')`. -/
def rstripSlash (l : List Char) : List Char :=
  (l.reverse.dropWhile (fun c => c = '/')).reverse

/-- Python `s.split(sep)` on characters (keeps empty pieces, like `str.split`
with an explicit separator). -/
def pySplit (sep : Char) : List Char → List (List Char)
  | [] => [[]]
  | c :: rest =>
    if c = sep then [] :: pySplit sep rest
    else
      match pySplit sep rest with
      | [] => [[c]]
      | s :: ss => (c :: s) :: ss

/-- Python `'/'.join(pieces)`. -/
def joinSlash (pieces : List (List Char)) : List Char :=
  List.intercalate ['/'] pieces

/-- The replacement token of the three substitutions. -/
def paramToken : List Char := [':', 'p', 'a', 'r', 'a', 'm']

/-- The characters of `'://'`. -/
def schemeSepChars : List Char := [':', '/', '/']

/-- `re.sub(r':[^/]+', ':param', s)`: a `:` followed by at least one
non-slash character starts a match; the match extends to the next `/`
(or the end), and scanning resumes there.  `skip = true` is the inside-a-match
mode. -/
def colonSubGo : Bool → List Char → List Char
  | _, [] => []
  | true, c :: rest =>
    if c = '/' then c :: colonSubGo false rest else colonSubGo true rest
  | false, c :: rest =>
    if c = ':' ∧ rest ≠ [] ∧ rest.head? ≠ some '/' then
      paramToken ++ colonSubGo true rest
    else c :: colonSubGo false rest

def colonSub (l : List Char) : List Char := colonSubGo false l

/-- `re.sub(r'<[^>]+>', ':param', s)`: a `<` followed by at least one
non-`>` character and a later `>` starts a match; skip mode drops up to and
including that `>`. -/
def angleSubGo : Bool → List Char → List Char
  | _, [] => []
  | true, c :: rest =>
    if c = '>' then angleSubGo false rest else angleSubGo true rest
  | false, c :: rest =>
    if c = '<' ∧ rest.head? ≠ some '>' ∧ '>' ∈ rest then
      paramToken ++ angleSubGo true rest
    else c :: angleSubGo false rest

def angleSub (l : List Char) : List Char := angleSubGo false l

/-- `re.sub(r'\x7b[^\x7d]+\x7d', ':param', s)` (braces). -/
def braceSubGo : Bool → List Char → List Char
  | _, [] => []
  | true, c :: rest =>
    if c = '}' then braceSubGo false rest else braceSubGo true rest
  | false, c :: rest =>
    if c = '{' ∧ rest.head? ≠ some '}' ∧ '}' ∈ rest then
      paramToken ++ braceSubGo true rest
    else c :: braceSubGo false rest

def braceSub (l : List Char) : List Char := braceSubGo false l

/-- `ConnectionAnalyzer._normalize_path` on character lists. -/
def normalize_path_data (path : List Char) : List Char :=
  let p1 := rstripSlash path
  let p2 := if strContains p1 schemeSepChars then
      '/' :: joinSlash ((pySplit '/' p1).drop 3)
    else p1
  braceSub (angleSub (colonSub p2))

/-- `ConnectionAnalyzer._normalize_path`. -/
def normalize_path (s : String) : String := ⟨normalize_path_data s.data⟩

/-! ### Supporting lemmas for the normalization theorems -/

theorem strContains_cons (c : Char) (rest p : List Char) :
    strContains (c :: rest) p = (p.isPrefixOf (c :: rest) || strContains rest p) := by
  rw [strContains]
  by_cases h : p.isPrefixOf (c :: rest) = true <;> simp [h]

theorem strContains_nil (p : List Char) :
    strContains [] p = p.isPrefixOf [] := by
  rw [strContains]
  by_cases h : p.isPrefixOf ([] : List Char) = true <;> simp [h]

theorem strContains_iff_isInfixOf (p t : List Char) :
    strContains t p = true ↔ p <:+: t := by
  induction t with
  | nil =>
    rw [strContains_nil, List.isPrefixOf_iff_prefix, List.prefix_nil, List.infix_nil]
  | cons c rest ih =>
    rw [strContains_cons, Bool.or_eq_true, List.isPrefixOf_iff_prefix, ih,
      List.infix_cons_iff]

theorem strContains_false_of_infixOf {p t t' : List Char} (hsub : t' <:+: t)
    (h : strContains t p = false) : strContains t' p = false := by
  by_contra hne
  have : strContains t' p = true := by
    cases hh : strContains t' p with
    | true => rfl
    | false => exact absurd hh hne
  have : p <:+: t := ((strContains_iff_isInfixOf p t').mp this).trans hsub
  rw [(strContains_iff_isInfixOf p t).mpr this] at h
  exact Bool.true_eq_false.mp h

theorem strContains_tail {c : Char} {t p : List Char}
    (h : strContains (c :: t) p = false) : strContains t p = false := by
  rw [strContains_cons, Bool.or_eq_false_iff] at h
  exact h.2

theorem isPrefixOf_cons_cons (a b : Char) (l₁ l₂ : List Char) :
    (a :: l₁).isPrefixOf (b :: l₂) = ((a == b) && l₁.isPrefixOf l₂) := rfl

theorem rstripSlash_prefixOf (l : List Char) : rstripSlash l <+: l := by
  rw [← List.reverse_suffix, rstripSlash, List.reverse_reverse]
  exact List.dropWhile_suffix _

theorem rstripSlash_getLast? (l : List Char) :
    (rstripSlash l).getLast? ≠ some '/' := by
  rw [rstripSlash, List.getLast?_reverse]
  have h := List.head?_dropWhile_not (fun c => c = '/') l.reverse
  cases hh : (l.reverse.dropWhile (fun c => c = '/')).head? with
  | none => simp
  | some x =>
    rw [hh] at h
    simp only [decide_eq_false_iff_not] at h
    simpa using h

theorem rstripSlash_eq_self {l : List Char} (h : l.getLast? ≠ some '/') :
    rstripSlash l = l := by
  rw [rstripSlash]
  cases hr : l.reverse with
  | nil =>
    have : l = [] := by simpa using congrArg List.reverse hr
    simp [this]
  | cons a t =>
    have ha : ¬ a = '/' := by
      rw [← List.head?_reverse, hr] at h
      simpa using h
    rw [List.dropWhile_cons_of_neg (by simpa using ha), ← hr, List.reverse_reverse]

theorem colonSubGo_mem {x : Char} :
    ∀ (l : List Char) (b : Bool), x ∈ colonSubGo b l → x ∈ l ∨ x ∈ paramToken := by
  intro l
  induction l with
  | nil => intro b h; simp [colonSubGo] at h
  | cons c r ih =>
    intro b h
    cases b with
    | true =>
      by_cases hc : c = '/'
      · rw [colonSubGo, if_pos hc] at h
        rcases List.mem_cons.mp h with h | h
        · exact Or.inl (h ▸ List.mem_cons_self _ _)
        · rcases ih false h with h' | h'
          · exact Or.inl (List.mem_cons_of_mem _ h')
          · exact Or.inr h'
      · rw [colonSubGo, if_neg hc] at h
        rcases ih true h with h' | h'
        · exact Or.inl (List.mem_cons_of_mem _ h')
        · exact Or.inr h'
    | false =>
      by_cases hm : c = ':' ∧ r ≠ [] ∧ r.head? ≠ some '/'
      · rw [colonSubGo, if_pos hm] at h
        rcases List.mem_append.mp h with h | h
        · exact Or.inr h
        · rcases ih true h with h' | h'
          · exact Or.inl (List.mem_cons_of_mem _ h')
          · exact Or.inr h'
      · rw [colonSubGo, if_neg hm] at h
        rcases List.mem_cons.mp h with h | h
        · exact Or.inl (h ▸ List.mem_cons_self _ _)
        · rcases ih false h with h' | h'
          · exact Or.inl (List.mem_cons_of_mem _ h')
          · exact Or.inr h'

theorem angleSubGo_id : ∀ {l : List Char}, '<' ∉ l → angleSubGo false l = l := by
  intro l
  induction l with
  | nil => intro _; rfl
  | cons c r ih =>
    intro h
    have hc : ¬ c = '<' := fun e => h (e ▸ List.mem_cons_self _ _)
    have hr : '<' ∉ r := fun e => h (List.mem_cons_of_mem _ e)
    rw [angleSubGo, if_neg (fun hh => hc hh.1), ih hr]

theorem braceSubGo_id : ∀ {l : List Char}, '{' ∉ l → braceSubGo false l = l := by
  intro l
  induction l with
  | nil => intro _; rfl
  | cons c r ih =>
    intro h
    have hc : ¬ c = '{' := fun e => h (e ▸ List.mem_cons_self _ _)
    have hr : '{' ∉ r := fun e => h (List.mem_cons_of_mem _ e)
    rw [braceSubGo, if_neg (fun hh => hc hh.1), ih hr]

theorem colonSubGo_false_ne_nil {l : List Char} (h : l ≠ []) :
    colonSubGo false l ≠ [] := by
  cases l with
  | nil => exact absurd rfl h
  | cons c r =>
    by_cases hm : c = ':' ∧ r ≠ [] ∧ r.head? ≠ some '/'
    · rw [colonSubGo, if_pos hm]; simp [paramToken]
    · rw [colonSubGo, if_neg hm]; simp

theorem colonSubGo_getLast? :
    ∀ (l : List Char), l.getLast? ≠ some '/' →
      ∀ b, (colonSubGo b l).getLast? ≠ some '/' := by
  intro l
  induction l with
  | nil => intro _ b; simp [colonSubGo]
  | cons c r ih =>
    intro h b
    cases r with
    | nil =>
      have hc : ¬ c = '/' := by simpa using h
      cases b with
      | true => rw [colonSubGo, if_neg hc]; simp [colonSubGo]
      | false =>
        rw [colonSubGo, if_neg (fun hh => hh.2.1 rfl)]
        simpa [colonSubGo] using h
    | cons d r₂ =>
      have hr : (d :: r₂).getLast? ≠ some '/' := by
        rwa [List.getLast?_cons_cons] at h
      have hne : colonSubGo false (d :: r₂) ≠ [] :=
        colonSubGo_false_ne_nil (by simp)
      cases b with
      | true =>
        by_cases hc : c = '/'
        · rw [colonSubGo, if_pos hc]
          rw [show (c :: colonSubGo false (d :: r₂)) =
            [c] ++ colonSubGo false (d :: r₂) from rfl, List.getLast?_append]
          obtain ⟨x, hx⟩ := Option.ne_none_iff_exists'.mp
            (fun e => hne (List.getLast?_eq_none_iff.mp e))
          rw [hx]
          have := ih hr false
          rw [hx] at this
          simpa using this
        · rw [colonSubGo, if_neg hc]
          exact ih hr true
      | false =>
        by_cases hm : c = ':' ∧ (d :: r₂) ≠ [] ∧ (d :: r₂).head? ≠ some '/'
        · rw [colonSubGo, if_pos hm, List.getLast?_append]
          cases hx : (colonSubGo true (d :: r₂)).getLast? with
          | none => simp [paramToken]
          | some x =>
            have := ih hr true
            rw [hx] at this
            simpa using this
        · rw [colonSubGo, if_neg hm]
          rw [show (c :: colonSubGo false (d :: r₂)) =
            [c] ++ colonSubGo false (d :: r₂) from rfl, List.getLast?_append]
          obtain ⟨x, hx⟩ := Option.ne_none_iff_exists'.mp
            (fun e => hne (List.getLast?_eq_none_iff.mp e))
          rw [hx]
          have := ih hr false
          rw [hx] at this
          simpa using this

theorem colonSubGo_false_head? {l : List Char} (h : l.head? ≠ some '/') :
    (colonSubGo false l).head? ≠ some '/' := by
  cases l with
  | nil => simp [colonSubGo]
  | cons c r =>
    have hc : ¬ c = '/' := by simpa using h
    by_cases hm : c = ':' ∧ r ≠ [] ∧ r.head? ≠ some '/'
    · rw [colonSubGo, if_pos hm]; simp [paramToken]
    · rw [colonSubGo, if_neg hm]; simpa using hc

theorem colonSubGo_true_eq (l : List Char) :
    colonSubGo true l = colonSubGo false (l.dropWhile (fun c => ¬ c = '/')) := by
  induction l with
  | nil => rfl
  | cons c rest ih =>
    by_cases hc : c = '/'
    · subst hc
      rw [List.dropWhile_cons_of_neg (by simp)]
      rw [colonSubGo, if_pos rfl, colonSubGo, if_neg (by simp)]
    · rw [List.dropWhile_cons_of_pos (by simpa using hc), colonSubGo, if_neg hc, ih]

theorem isPrefixOf_single_slash {X : List Char} (h : X.head? ≠ some '/') :
    ['/'].isPrefixOf X = false := by
  cases X with
  | nil => rfl
  | cons y t =>
    have hy : ¬ y = '/' := by simpa using h
    rw [isPrefixOf_cons_cons]
    simp [beq_eq_false_iff_ne.mpr (fun e => hy e.symm)]

theorem colonSubGo_no_sep :
    ∀ (l : List Char) (b : Bool), strContains l schemeSepChars = false →
      strContains (colonSubGo b l) schemeSepChars = false := by
  intro l
  induction l with
  | nil => intro b _; cases b <;> rfl
  | cons c r ih =>
    intro b h
    have hr : strContains r schemeSepChars = false := strContains_tail h
    cases b with
    | true =>
      by_cases hc : c = '/'
      · subst hc
        rw [colonSubGo, if_pos rfl, strContains_cons]
        refine Bool.or_eq_false_iff.mpr ⟨?_, ih false hr⟩
        rw [show schemeSepChars = ':' :: ['/', '/'] from rfl, isPrefixOf_cons_cons]
        simp
      · rw [colonSubGo, if_neg hc]
        exact ih true hr
    | false =>
      by_cases hm : c = ':' ∧ r ≠ [] ∧ r.head? ≠ some '/'
      · rw [colonSubGo, if_pos hm]
        have e2 : ∀ (w : Char) (X : List Char), ¬ w = ':' →
            schemeSepChars.isPrefixOf (w :: X) = false := by
          intro w X hw
          rw [show schemeSepChars = ':' :: ['/', '/'] from rfl, isPrefixOf_cons_cons]
          simp [beq_eq_false_iff_ne.mpr (fun e => hw e.symm)]
        have e1 : ∀ X : List Char,
            schemeSepChars.isPrefixOf (':' :: 'p' :: X) = false := by
          intro X
          rw [show schemeSepChars = ':' :: '/' :: ['/'] from rfl,
            isPrefixOf_cons_cons, isPrefixOf_cons_cons]
          simp
        have hstep : strContains (paramToken ++ colonSubGo true r) schemeSepChars =
            strContains (colonSubGo true r) schemeSepChars := by
          rw [show paramToken ++ colonSubGo true r =
            ':' :: 'p' :: 'a' :: 'r' :: 'a' :: 'm' :: colonSubGo true r from rfl]
          rw [strContains_cons, strContains_cons, strContains_cons, strContains_cons,
            strContains_cons, strContains_cons]
          rw [e1, e2 'p' _ (by decide), e2 'a' _ (by decide), e2 'r' _ (by decide),
            e2 'a' _ (by decide), e2 'm' _ (by decide)]
          simp
        rw [hstep]
        exact ih true hr
      · rw [colonSubGo, if_neg hm, strContains_cons]
        refine Bool.or_eq_false_iff.mpr ⟨?_, ih false hr⟩
        by_cases hc : c = ':'
        · subst hc
          have hreq : r = [] ∨ r.head? = some '/' := by
            by_cases h1 : r = []
            · exact Or.inl h1
            · by_cases h2 : r.head? = some '/'
              · exact Or.inr h2
              · exact absurd ⟨rfl, h1, h2⟩ hm
          rcases hreq with h1 | h2
          · subst h1
            rfl
          · obtain ⟨r₂, rfl⟩ : ∃ r₂, r = '/' :: r₂ := by
              cases r with
              | nil => simp at h2
              | cons y t => exact ⟨t, by simpa using congrArg (List.cons · t) (by simpa using h2)⟩
            have hhd : r₂.head? ≠ some '/' := by
              intro hh
              obtain ⟨r₃, rfl⟩ : ∃ r₃, r₂ = '/' :: r₃ := by
                cases r₂ with
                | nil => simp at hh
                | cons y t => exact ⟨t, by simpa using congrArg (List.cons · t) (by simpa using hh)⟩
              rw [strContains_cons] at h
              have := (Bool.or_eq_false_iff.mp h).1
              rw [show schemeSepChars = ':' :: '/' :: ['/'] from rfl,
                isPrefixOf_cons_cons, isPrefixOf_cons_cons, isPrefixOf_cons_cons] at this
              simp at this
            rw [show colonSubGo false ('/' :: r₂) = '/' :: colonSubGo false r₂ by
              rw [colonSubGo, if_neg (by simp)]]
            rw [show schemeSepChars = ':' :: '/' :: ['/'] from rfl,
              isPrefixOf_cons_cons, isPrefixOf_cons_cons]
            rw [isPrefixOf_single_slash (colonSubGo_false_head? hhd)]
            simp
        · rw [show schemeSepChars = ':' :: ['/', '/'] from rfl, isPrefixOf_cons_cons]
          simp [beq_eq_false_iff_ne.mpr (fun e => hc e.symm)]

theorem colonSubGo_false_cons_noMatch {c : Char} {r : List Char}
    (h : ¬ (c = ':' ∧ r ≠ [] ∧ r.head? ≠ some '/')) :
    colonSubGo false (c :: r) = c :: colonSubGo false r := by
  rw [colonSubGo, if_neg h]

theorem colonSubGo_false_cons_match {c : Char} {r : List Char}
    (h : c = ':' ∧ r ≠ [] ∧ r.head? ≠ some '/') :
    colonSubGo false (c :: r) = paramToken ++ colonSubGo true r := by
  rw [colonSubGo, if_pos h]

theorem colonSubGo_true_cons_skip {c : Char} {r : List Char} (h : ¬ c = '/') :
    colonSubGo true (c :: r) = colonSubGo true r := by
  rw [colonSubGo, if_neg h]

theorem colonSubGo_true_cons_slash {r : List Char} :
    colonSubGo true ('/' :: r) = '/' :: colonSubGo false r := by
  rw [colonSubGo, if_pos rfl]

theorem colonSub_idem (l : List Char) : colonSub (colonSub l) = colonSub l := by
  suffices h : ∀ n (l : List Char), l.length ≤ n →
      colonSubGo false (colonSubGo false l) = colonSubGo false l from
    h l.length l le_rfl
  intro n
  induction n with
  | zero =>
    intro l hl
    rw [List.length_eq_zero.mp (Nat.le_zero.mp hl)]
    rfl
  | succ n ih =>
    intro l hl
    cases l with
    | nil => rfl
    | cons c r =>
      by_cases hc : c = ':'
      · subst hc
        cases r with
        | nil => rfl
        | cons d r₂ =>
          have hr₂ : r₂.length ≤ n := by
            simp only [List.length_cons] at hl; omega
          by_cases hd : d = '/'
          · subst hd
            have s1 : colonSubGo false ('/' :: r₂) = '/' :: colonSubGo false r₂ :=
              colonSubGo_false_cons_noMatch (by simp)
            have s2 : colonSubGo false (':' :: '/' :: r₂) =
                ':' :: '/' :: colonSubGo false r₂ := by
              rw [colonSubGo_false_cons_noMatch (by simp), s1]
            have s3 : colonSubGo false ('/' :: colonSubGo false r₂) =
                '/' :: colonSubGo false (colonSubGo false r₂) :=
              colonSubGo_false_cons_noMatch (by simp)
            have s4 : colonSubGo false (':' :: '/' :: colonSubGo false r₂) =
                ':' :: '/' :: colonSubGo false (colonSubGo false r₂) := by
              rw [colonSubGo_false_cons_noMatch (by simp), s3]
            rw [s2, s4, ih r₂ hr₂]
          · have hm : (':' : Char) = ':' ∧ (d :: r₂) ≠ [] ∧ (d :: r₂).head? ≠ some '/' :=
              ⟨rfl, by simp, by simpa using hd⟩
            rw [colonSubGo_false_cons_match hm, colonSubGo_true_eq (d :: r₂)]
            have hXfix : colonSubGo true
                (colonSubGo false ((d :: r₂).dropWhile (fun c => ¬ c = '/'))) =
                colonSubGo false ((d :: r₂).dropWhile (fun c => ¬ c = '/')) := by
              cases hw : (d :: r₂).dropWhile (fun c => ¬ c = '/') with
              | nil => rfl
              | cons y w₂ =>
                have hy : y = '/' := by
                  have hh := List.head?_dropWhile_not
                    (fun c => ¬ c = '/') (d :: r₂)
                  rw [hw] at hh
                  simpa using hh
                subst hy
                have hw₂ : w₂.length ≤ n := by
                  have hsuf : ('/' :: w₂).length ≤ (d :: r₂).length := by
                    rw [← hw]
                    exact (List.dropWhile_suffix _).length_le
                  simp only [List.length_cons] at hsuf hl
                  omega
                rw [colonSubGo_false_cons_noMatch (by simp),
                  colonSubGo_true_cons_slash, ih w₂ hw₂]
            rw [show paramToken ++
                colonSubGo false ((d :: r₂).dropWhile (fun c => ¬ c = '/')) =
                ':' :: 'p' :: 'a' :: 'r' :: 'a' :: 'm' ::
                colonSubGo false ((d :: r₂).dropWhile (fun c => ¬ c = '/')) from rfl]
            rw [colonSubGo_false_cons_match ⟨rfl, by simp, by simp⟩,
              colonSubGo_true_cons_skip (by decide),
              colonSubGo_true_cons_skip (by decide),
              colonSubGo_true_cons_skip (by decide),
              colonSubGo_true_cons_skip (by decide),
              colonSubGo_true_cons_skip (by decide),
              hXfix]
            rfl
      · have hr : r.length ≤ n := by
          simp only [List.length_cons] at hl; omega
        rw [colonSubGo_false_cons_noMatch (fun hh => hc hh.1),
          colonSubGo_false_cons_noMatch (fun hh => hc hh.1), ih r hr]

theorem normalize_path_data_no_scheme {l : List Char}
    (h : strContains (rstripSlash l) schemeSepChars = false) :
    normalize_path_data l = braceSub (angleSub (colonSub (rstripSlash l))) := by
  unfold normalize_path_data
  simp [h]

/-- Counterexample to C6 as stated: normalization is **not** idempotent on all
inputs.  `'https://h'` (a scheme with an empty path) normalizes to `'/'`,
whose normalization strips the trailing slash to `''`. -/
theorem c6_counterexample :
    normalize_path (normalize_path "https://h") ≠ normalize_path "https://h" ∧
    normalize_path "https://h" = "/" ∧ normalize_path "/" = "" := by
  refine ⟨?_, by decide, by decide⟩
  decide

/-- C6 (amended): path normalization is idempotent on every input that does
not contain a scheme separator `'://'` nor the bracketed parameter markers
`<`/`\x7b` (for those, the substitution can create a fresh `:name` run, e.g.
`'/a/<id>x'` → `'/a/:paramx'` → `'/a/:param'`, and scheme stripping can
produce `'/'` whose normalization is `''`); the three path-parameter syntaxes
normalize to the same string, the trailing slash is stripped, and scheme+host
are dropped when the path contains `'://'`. -/
theorem c6_normalize :
    (∀ p : String, strContains p.data schemeSepChars = false → '<' ∉ p.data →
      '{' ∉ p.data → normalize_path (normalize_path p) = normalize_path p) ∧
    (normalize_path "/users/:id" = "/users/:param" ∧
     normalize_path "/users/\x7bid\x7d" = "/users/:param" ∧
     normalize_path "/users/<id>" = "/users/:param") ∧
    normalize_path "/users/" = "/users" ∧
    normalize_path "https://ex.com/api/users" = "/api/users" := by
  refine ⟨?_, ⟨by decide, by decide, by decide⟩, by decide, by decide⟩
  intro p h1 h2 h3
  have hpre : rstripSlash p.data <+: p.data := rstripSlash_prefixOf _
  have hq1 : strContains (rstripSlash p.data) schemeSepChars = false :=
    strContains_false_of_infixOf hpre.isInfix h1
  have hq2 : '<' ∉ rstripSlash p.data := fun e => h2 (hpre.subset e)
  have hq3 : '{' ∉ rstripSlash p.data := fun e => h3 (hpre.subset e)
  have hlt : '<' ∉ colonSub (rstripSlash p.data) := by
    intro e
    rcases colonSubGo_mem _ false e with h | h
    · exact hq2 h
    · simp [paramToken] at h
  have hbr : '{' ∉ colonSub (rstripSlash p.data) := by
    intro e
    rcases colonSubGo_mem _ false e with h | h
    · exact hq3 h
    · simp [paramToken] at h
  have e1 : normalize_path_data p.data = colonSub (rstripSlash p.data) := by
    rw [normalize_path_data_no_scheme hq1,
      show angleSub (colonSub (rstripSlash p.data)) = colonSub (rstripSlash p.data)
        from angleSubGo_id hlt,
      show braceSub (colonSub (rstripSlash p.data)) = colonSub (rstripSlash p.data)
        from braceSubGo_id hbr]
  have hL : (colonSub (rstripSlash p.data)).getLast? ≠ some '/' :=
    colonSubGo_getLast? _ (rstripSlash_getLast? p.data) false
  have hrs : rstripSlash (colonSub (rstripSlash p.data)) =
      colonSub (rstripSlash p.data) := rstripSlash_eq_self hL
  have hns : strContains (colonSub (rstripSlash p.data)) schemeSepChars = false :=
    colonSubGo_no_sep _ false hq1
  have e2 : normalize_path_data (colonSub (rstripSlash p.data)) =
      colonSub (rstripSlash p.data) := by
    rw [normalize_path_data_no_scheme (by rw [hrs]; exact hns), hrs, colonSub_idem,
      show angleSub (colonSub (rstripSlash p.data)) = colonSub (rstripSlash p.data)
        from angleSubGo_id hlt,
      show braceSub (colonSub (rstripSlash p.data)) = colonSub (rstripSlash p.data)
        from braceSubGo_id hbr]
  show String.mk (normalize_path_data (normalize_path_data p.data)) =
    String.mk (normalize_path_data p.data)
  rw [e1, e2]

/-- Witness for C6: idempotence applied at `'/users/:id'`, discharging the
no-scheme/no-bracket hypotheses by evaluation. -/
theorem c6_normalize_witness :
    normalize_path (normalize_path "/users/:id") = normalize_path "/users/:id" :=
  c6_normalize.1 "/users/:id" (by decide) (by decide) (by decide)

/-! ## C5: endpoint matching tiers
(`analyzers/connection.py`, `ConnectionAnalyzer._find_matching_endpoints`)

The endpoint index is a dict from normalized path to a list of endpoint-info
records; the function is generic in the stored value.  The source: exact key
lookup returns immediately; otherwise one pass over the index appends the pair
when `endpoint_path.startswith('/api') and endpoint_path in norm_client_path`,
elif `norm_client_path.startswith('/api') and norm_client_path in
endpoint_path`, elif both start with `'/api/'` and the 5-character-stripped
suffixes are equal. -/

/-- `ConnectionAnalyzer._find_matching_endpoints` (the local `norm_client_path`
variable is written out as `normalize_path client_path`). -/
def find_matching_endpoints {α : Type} (client_path : String)
    (endpoints : List (String × α)) : List (String × α) :=
  match endpoints.find? (fun kv => kv.1 = normalize_path client_path) with
  | some kv => [(normalize_path client_path, kv.2)]
  | none =>
    endpoints.filter (fun kv =>
      if strStartsWith kv.1.data "/api".data ∧
          strContains (normalize_path client_path).data kv.1.data = true
      then true
      else if strStartsWith (normalize_path client_path).data "/api".data ∧
          strContains kv.1.data (normalize_path client_path).data = true then true
      else if strStartsWith kv.1.data "/api/".data ∧
          strStartsWith (normalize_path client_path).data "/api/".data ∧
          kv.1.data.drop 5 = (normalize_path client_path).data.drop 5 then true
      else false)

/-- The matching tiers exactly as claim C5 words them: tier (ii) fires on
containment in either direction provided **at least one side** begins with
`/api`; tier (iii) fires only when tier (ii) produced nothing. -/
def claimed_matching_tiers {α : Type} (client_path : String)
    (endpoints : List (String × α)) : List (String × α) :=
  match endpoints.find? (fun kv => kv.1 = normalize_path client_path) with
  | some kv => [(normalize_path client_path, kv.2)]
  | none =>
    let tier2 := endpoints.filter (fun kv =>
      (strContains (normalize_path client_path).data kv.1.data ||
        strContains kv.1.data (normalize_path client_path).data) &&
      (strStartsWith kv.1.data "/api".data ||
        strStartsWith (normalize_path client_path).data "/api".data))
    if tier2.isEmpty then
      endpoints.filter (fun kv =>
        strStartsWith kv.1.data "/api/".data &&
        strStartsWith (normalize_path client_path).data "/api/".data &&
        decide (kv.1.data.drop 5 = (normalize_path client_path).data.drop 5))
    else tier2

/-- The tiers as the code actually implements them, stated declaratively:
exact match short-circuits; otherwise an index entry matches iff the indexed
path begins with `/api` and occurs inside the client path, or the client path
begins with `/api` and occurs inside the indexed path — the **contained**
side must itself carry the `/api` marker, and the suffix-equality tier is
gone because any pair satisfying it is an exact match. -/
def amended_matching_tiers {α : Type} (client_path : String)
    (endpoints : List (String × α)) : List (String × α) :=
  match endpoints.find? (fun kv => kv.1 = normalize_path client_path) with
  | some kv => [(normalize_path client_path, kv.2)]
  | none =>
    endpoints.filter (fun kv =>
      (strStartsWith kv.1.data "/api".data &&
        strContains (normalize_path client_path).data kv.1.data) ||
      (strStartsWith (normalize_path client_path).data "/api".data &&
        strContains kv.1.data (normalize_path client_path).data))

theorem strStartsWith_append {l p : List Char} (h : strStartsWith l p = true) :
    l = p ++ l.drop p.length := by
  rw [strStartsWith, List.isPrefixOf_iff_prefix] at h
  obtain ⟨t, ht⟩ := h
  rw [← ht, List.drop_left]

/-- Counterexample to C5 as stated: index entry `"/foo"` (no `/api` marker on
the contained side) against client path `"/api/foo"`.  The claim's tier (ii)
matches (containment holds and one side begins with `/api`), but the code
requires the contained side itself to begin with `/api` and returns no match. -/
theorem c5_counterexample :
    find_matching_endpoints "/api/foo" [("/foo", (0 : Nat))] = [] ∧
    claimed_matching_tiers "/api/foo" [("/foo", (0 : Nat))] = [("/foo", 0)] := by
  constructor
  · decide
  · decide

/-- C5 (amended): per client call site, exact normalized-path equality wins and
short-circuits every later tier; otherwise an index entry matches exactly when
the indexed path begins with `/api` and is contained in the client path, or
the client path begins with `/api` and is contained in the indexed path (the
contained side must itself begin with `/api`); the suffix-equality tier after
stripping `/api/` never fires, since such a pair is already an exact match. -/
theorem c5_matching_tiers {α : Type} (client_path : String)
    (endpoints : List (String × α)) :
    find_matching_endpoints client_path endpoints =
      amended_matching_tiers client_path endpoints := by
  unfold find_matching_endpoints amended_matching_tiers
  cases hf : endpoints.find? (fun kv => kv.1 = normalize_path client_path) with
  | some kv => rfl
  | none =>
    apply List.filter_congr
    intro kv hkv
    have hne : ¬ kv.1 = normalize_path client_path := by
      intro he
      have := List.find?_eq_none.mp hf kv hkv
      simp [he] at this
    by_cases h1 : strStartsWith kv.1.data "/api".data ∧
        strContains (normalize_path client_path).data kv.1.data = true
    · simp [h1.1, h1.2]
    · rw [if_neg h1]
      by_cases h2 : strStartsWith (normalize_path client_path).data "/api".data ∧
          strContains kv.1.data (normalize_path client_path).data = true
      · rw [if_pos h2]
        simp [h2.1, h2.2]
      · rw [if_neg h2]
        have h3 : ¬ (strStartsWith kv.1.data "/api/".data ∧
            strStartsWith (normalize_path client_path).data "/api/".data ∧
            kv.1.data.drop 5 = (normalize_path client_path).data.drop 5) := by
          rintro ⟨ha, hb, hc⟩
          apply hne
          have ea := strStartsWith_append ha
          have eb := strStartsWith_append hb
          have : kv.1.data = (normalize_path client_path).data := by
            rw [ea, eb, show ("/api/".data).length = 5 from rfl, hc]
          exact String.ext this
        rw [if_neg h3]
        have b1 : (strStartsWith kv.1.data "/api".data &&
            strContains (normalize_path client_path).data kv.1.data) = false := by
          rcases Decidable.not_and_iff_or_not.mp h1 with h | h
          · simp [Bool.eq_false_iff.mpr h]
          · simp [Bool.eq_false_iff.mpr (fun e => h e)]
        have b2 : (strStartsWith (normalize_path client_path).data "/api".data &&
            strContains kv.1.data (normalize_path client_path).data) = false := by
          rcases Decidable.not_and_iff_or_not.mp h2 with h | h
          · simp [Bool.eq_false_iff.mpr h]
          · simp [Bool.eq_false_iff.mpr (fun e => h e)]
        rw [b1, b2]
        rfl

/-! ## C7: the two connection passes
(`analyzers/connection.py`, `_find_api_connections` and
`_find_service_connections`)

Both passes walk each scanned repository's analyzed files, fetch the file and
run regex patterns over it, then mutate only that repository's dependency
sets.  The regex layer (`re.finditer` over the fetched content) is an external
library call on data the core does not interpret further; it is embedded as an
oracle parameter giving the extracted match groups per `(repository id, file
path)` — a file whose fetch raises is the oracle returning nothing, matching
the `except: continue` in the source.  Everything downstream of the extraction
(filters, normalization, matching, the id-based self-exclusion guards,
`add_dependency` dedup) is embedded directly. -/

/-- One value of the endpoint index built by `_extract_api_endpoints`. -/
structure EndpointInfo where
  repo_id : Nat
  repo_name : String
  file_path : String
  matched_text : String
  deriving DecidableEq, Repr

/-- Python `s.endswith(p)`. -/
def strEndsWith (t p : List Char) : Bool := p.isSuffixOf t

/-- The code-file extension filter of `_find_api_connections` (line 179). -/
def isCodeFile (path : String) : Bool :=
  [".py", ".js", ".java", ".go", ".ts", ".rb", ".php"].any
    (fun ext => strEndsWith path.data ext.data)

/-- The configuration-file test of `_find_service_connections` (line 246). -/
def isConfigPath (path : String) : Bool :=
  ["docker", "kubernetes", "k8s", ".yml", ".yaml", ".env", "config"].any
    (fun x => strContains (strLower path.data) x.data)

/-- The code-file extension filter of `_find_service_connections` (line 249;
note: no `.go`, unlike the API pass). -/
def isServiceCodeFile (path : String) : Bool :=
  [".py", ".js", ".java", ".ts", ".rb", ".php"].any
    (fun ext => strEndsWith path.data ext.data)

/-- `ConnectionAnalyzer._find_api_connections`: for each scanned repository,
over each code file, each extracted client path is normalized and matched
against the endpoint index; every matching endpoint info whose `repo_id`
differs from the scanning repository's id contributes the owner's name to
`dependencies['repositories']`. -/
def find_api_connections (clientPaths : Nat → String → List String)
    (api_endpoints : List (String × List EndpointInfo)) (repos : List Repo) :
    List Repo :=
  repos.map (fun repo =>
    if ¬ repo.scanned then repo
    else repo.analyzed_files.foldl (fun r file_path =>
      if ¬ isCodeFile file_path then r
      else (clientPaths repo.id file_path).foldl (fun r path =>
        (find_matching_endpoints (normalize_path path) api_endpoints).foldl
          (fun r m => m.2.foldl (fun r info =>
            if info.repo_id ≠ repo.id then
              add_dependency r "repositories" info.repo_name
            else r) r) r) r) repo)

/-- Python `set.add` on a deduplicated list (the source's `repo_names` set;
set iteration order is unspecified in Python, and nothing downstream depends
on it — the membership semantics is what matters). -/
def listSetAdd (s : List (List Char)) (x : List Char) : List (List Char) :=
  if x ∈ s then s else s ++ [x]

/-- The name-token set of `_find_service_connections` (lines 225–236): each
scanned repository's lowercase full name, plus every hyphen-delimited part
longer than 3 characters when the name is hyphenated. -/
def build_repo_names (repos : List Repo) : List (List Char) :=
  repos.foldl (fun acc repo =>
    if repo.scanned then
      let acc1 := listSetAdd acc (strLower repo.name.data)
      let parts := pySplit '-' (strLower repo.name.data)
      if parts.length > 1 then
        parts.foldl (fun a part =>
          if part.length > 3 then listSetAdd a part else a) acc1
      else acc1
    else acc) []

/-- `ConnectionAnalyzer._find_service_connections`: `serviceMatches` is the
oracle for the service-reference regex group extractions per (repo id, file);
`urlHit` is the oracle for whether the per-token URL regex matches the file's
content.  All guards — config/code filter, `if match.group(1)` truthiness,
token equality or `len > 5` containment, target matching, and the id-based
self-exclusion — follow the source. -/
def find_service_connections (serviceMatches : Nat → String → List String)
    (urlHit : Nat → String → List Char → Bool) (repos : List Repo) : List Repo :=
  let repo_names := build_repo_names repos
  repos.map (fun repo =>
    if ¬ repo.scanned then repo
    else repo.analyzed_files.foldl (fun r file_path =>
      if ¬ (isConfigPath file_path = true ∨ isServiceCodeFile file_path = true) then r
      else
        let r1 := (serviceMatches repo.id file_path).foldl (fun r m =>
          if m ≠ "" then
            repo_names.foldl (fun r repo_name =>
              if strLower m.data = repo_name ∨
                  (repo_name.length > 5 ∧ strContains (strLower m.data) repo_name) then
                repos.foldl (fun r target =>
                  if (strLower target.name.data = repo_name ∨
                      (repo_name.length > 5 ∧
                        strContains (strLower target.name.data) repo_name)) ∧
                      target.id ≠ repo.id then
                    add_dependency r "services" target.name
                  else r) r
              else r) r
          else r) r
        repo_names.foldl (fun r repo_name =>
          if repo_name.length > 5 ∧ urlHit repo.id file_path repo_name then
            repos.foldl (fun r target =>
              if strContains (strLower target.name.data) repo_name ∧
                  target.id ≠ repo.id then
                add_dependency r "services" target.name
              else r) r
          else r) r1) repo)

theorem dictGetD_cons {β : Type} (a : String) (b : β) (rest : List (String × β))
    (k' : String) (dflt : β) :
    dictGetD ((a, b) :: rest) k' dflt = if a = k' then b else dictGetD rest k' dflt := by
  unfold dictGetD
  by_cases h : a = k'
  · rw [List.find?_cons_of_pos _ (by simpa using h), if_pos h]
  · rw [List.find?_cons_of_neg _ (by simpa using h), if_neg h]

theorem dictGetD_dictSet_ne {β : Type} {k k' : String} (d : List (String × β))
    (v : β) (dflt : β) (h : ¬ k' = k) :
    dictGetD (dictSet d k v) k' dflt = dictGetD d k' dflt := by
  induction d with
  | nil =>
    show dictGetD [(k, v)] k' dflt = dictGetD [] k' dflt
    rw [dictGetD_cons, if_neg (fun e => h e.symm)]
  | cons kv rest ih =>
    obtain ⟨a, b⟩ := kv
    by_cases he : a = k
    · rw [dictSet, if_pos he, dictGetD_cons, dictGetD_cons,
        if_neg (fun e => h e.symm), if_neg (fun e => h (he ▸ e).symm)]
    · rw [dictSet, if_neg he, dictGetD_cons, dictGetD_cons]
      by_cases ha : a = k'
      · rw [if_pos ha, if_pos ha]
      · rw [if_neg ha, if_neg ha, ih]

theorem dictGetD_of_not_hasKey {β : Type} {d : List (String × β)} {k : String}
    (dflt : β) (h : dictHasKey d k = false) : dictGetD d k dflt = dflt := by
  unfold dictHasKey at h
  unfold dictGetD
  cases hf : d.find? (fun kv => kv.1 = k) with
  | none => rfl
  | some kv => rw [hf] at h; simp at h

theorem add_dependency_id (r : Repo) (k n : String) :
    (add_dependency r k n).id = r.id := rfl

theorem add_dependency_name (r : Repo) (k n : String) :
    (add_dependency r k n).name = r.name := rfl

theorem add_dependency_mem {x : String} (r : Repo) (k n k' : String)
    (h : x ∈ dictGetD (add_dependency r k n).dependencies k' []) :
    x ∈ dictGetD r.dependencies k' [] ∨ (x = n ∧ k' = k) := by
  have hEq : ∀ k'' : String,
      dictGetD (if dictHasKey r.dependencies k then r.dependencies
                else dictSet r.dependencies k []) k'' [] =
        dictGetD r.dependencies k'' [] := by
    intro k''
    by_cases hk : dictHasKey r.dependencies k
    · rw [if_pos hk]
    · rw [if_neg hk]
      by_cases hkk : k'' = k
      · subst hkk
        rw [dictGetD_dictSet,
          dictGetD_of_not_hasKey _ (Bool.not_eq_true _ ▸ hk)]
      · rw [dictGetD_dictSet_ne _ _ _ hkk]
  unfold add_dependency at h
  simp only at h
  by_cases hmem : n ∈ dictGetD (if dictHasKey r.dependencies k then r.dependencies
      else dictSet r.dependencies k []) k []
  · rw [if_pos hmem] at h
    rw [hEq k'] at h
    exact Or.inl h
  · rw [if_neg hmem] at h
    by_cases hkk : k' = k
    · subst hkk
      rw [dictGetD_dictSet] at h
      rcases List.mem_append.mp h with h | h
      · rw [hEq k'] at h
        exact Or.inl h
      · exact Or.inr ⟨List.mem_singleton.mp h, rfl⟩
    · rw [dictGetD_dictSet_ne _ _ _ hkk, hEq k'] at h
      exact Or.inl h

theorem foldl_selfFree {σ : Type} (i : Nat) (nm : String) (f : Repo → σ → Repo) :
    ∀ l : List σ,
      (∀ r a, a ∈ l → r.id = i ∧ r.name = nm ∧
        nm ∉ dictGetD r.dependencies "repositories" [] ∧
        nm ∉ dictGetD r.dependencies "services" [] →
        (f r a).id = i ∧ (f r a).name = nm ∧
        nm ∉ dictGetD (f r a).dependencies "repositories" [] ∧
        nm ∉ dictGetD (f r a).dependencies "services" []) →
      ∀ r : Repo, r.id = i ∧ r.name = nm ∧
        nm ∉ dictGetD r.dependencies "repositories" [] ∧
        nm ∉ dictGetD r.dependencies "services" [] →
        (l.foldl f r).id = i ∧ (l.foldl f r).name = nm ∧
        nm ∉ dictGetD (l.foldl f r).dependencies "repositories" [] ∧
        nm ∉ dictGetD (l.foldl f r).dependencies "services" [] := by
  intro l
  induction l with
  | nil => intro _ r h; exact h
  | cons a t ih =>
    intro hf r h
    rw [List.foldl_cons]
    exact ih (fun r b hb hp => hf r b (List.mem_cons_of_mem _ hb) hp) _
      (hf r a (List.mem_cons_self _ _) h)

theorem find_matching_endpoints_values {α : Type} {client : String}
    {eps : List (String × α)} {m : String × α}
    (h : m ∈ find_matching_endpoints client eps) : ∃ k, (k, m.2) ∈ eps := by
  unfold find_matching_endpoints at h
  cases hf : eps.find? (fun kv => kv.1 = normalize_path client) with
  | some kv =>
    rw [hf] at h
    have hm := List.mem_of_find?_eq_some hf
    have he : m = (normalize_path client, kv.2) := List.mem_singleton.mp h
    refine ⟨kv.1, ?_⟩
    have h2 : m.2 = kv.2 := by rw [he]
    rw [h2]
    simpa using hm
  | none =>
    rw [hf] at h
    have := List.mem_of_mem_filter h
    exact ⟨m.1, by simpa using this⟩

theorem find_api_connections_safe
    (cp : Nat → String → List String) (eps : List (String × List EndpointInfo))
    (repos : List Repo)
    (hnames : ∀ r ∈ repos, ∀ s ∈ repos, r.name = s.name → r.id = s.id)
    (heps : ∀ kv ∈ eps, ∀ info ∈ kv.2,
      ∃ t ∈ repos, t.id = info.repo_id ∧ t.name = info.repo_name)
    (hinit : ∀ r ∈ repos, r.name ∉ dictGetD r.dependencies "repositories" [] ∧
      r.name ∉ dictGetD r.dependencies "services" []) :
    ∀ r' ∈ find_api_connections cp eps repos,
      (∃ r ∈ repos, r'.id = r.id ∧ r'.name = r.name) ∧
      r'.name ∉ dictGetD r'.dependencies "repositories" [] ∧
      r'.name ∉ dictGetD r'.dependencies "services" [] := by
  intro r' hr'
  unfold find_api_connections at hr'
  obtain ⟨repo, hrepo, hbody⟩ := List.mem_map.mp hr'
  have hP : r'.id = repo.id ∧ r'.name = repo.name ∧
      repo.name ∉ dictGetD r'.dependencies "repositories" [] ∧
      repo.name ∉ dictGetD r'.dependencies "services" [] := by
    rw [← hbody]
    by_cases hs : ¬ repo.scanned
    · rw [if_pos hs]
      exact ⟨rfl, rfl, (hinit repo hrepo).1, (hinit repo hrepo).2⟩
    · rw [if_neg hs]
      apply foldl_selfFree
      · intro r file_path _ hPr
        by_cases hcode : ¬ isCodeFile file_path
        · rw [if_pos hcode]; exact hPr
        · rw [if_neg hcode]
          apply foldl_selfFree
          · intro r path _ hPr
            apply foldl_selfFree
            · intro r m hmem hPr
              apply foldl_selfFree
              · intro r info hinfo hPr
                by_cases hid : info.repo_id ≠ repo.id
                · rw [if_pos hid]
                  obtain ⟨k, hk⟩ := find_matching_endpoints_values hmem
                  obtain ⟨t, ht, htid, htname⟩ := heps (k, m.2) hk info hinfo
                  refine ⟨hPr.1, hPr.2.1, ?_, ?_⟩
                  · intro hin
                    rcases add_dependency_mem r _ _ _ hin with hin | ⟨he, _⟩
                    · exact hPr.2.2.1 hin
                    · exact hid (htid ▸ hnames t ht repo hrepo (htname.trans he.symm))
                  · intro hin
                    rcases add_dependency_mem r _ _ _ hin with hin | ⟨_, hk'⟩
                    · exact hPr.2.2.2 hin
                    · exact absurd hk' (by decide)
                · rw [if_neg hid]; exact hPr
              · exact hPr
            · exact hPr
          · exact hPr
      · exact ⟨rfl, rfl, (hinit repo hrepo).1, (hinit repo hrepo).2⟩
  exact ⟨⟨repo, hrepo, hP.1, hP.2.1⟩, hP.2.1 ▸ hP.2.2.1, hP.2.1 ▸ hP.2.2.2⟩

theorem find_service_connections_safe
    (sm : Nat → String → List String) (uh : Nat → String → List Char → Bool)
    (repos : List Repo)
    (hnames : ∀ r ∈ repos, ∀ s ∈ repos, r.name = s.name → r.id = s.id)
    (hinit : ∀ r ∈ repos, r.name ∉ dictGetD r.dependencies "repositories" [] ∧
      r.name ∉ dictGetD r.dependencies "services" []) :
    ∀ r' ∈ find_service_connections sm uh repos,
      (∃ r ∈ repos, r'.id = r.id ∧ r'.name = r.name) ∧
      r'.name ∉ dictGetD r'.dependencies "repositories" [] ∧
      r'.name ∉ dictGetD r'.dependencies "services" [] := by
  intro r' hr'
  unfold find_service_connections at hr'
  obtain ⟨repo, hrepo, hbody⟩ := List.mem_map.mp hr'
  have htarget : ∀ r : Repo, ∀ target ∈ repos, ∀ cond : Prop, [Decidable cond] →
      r.id = repo.id ∧ r.name = repo.name ∧
      repo.name ∉ dictGetD r.dependencies "repositories" [] ∧
      repo.name ∉ dictGetD r.dependencies "services" [] →
      ∀ r₂ : Repo, r₂ = (if cond ∧ target.id ≠ repo.id then
        add_dependency r "services" target.name else r) →
      r₂.id = repo.id ∧ r₂.name = repo.name ∧
      repo.name ∉ dictGetD r₂.dependencies "repositories" [] ∧
      repo.name ∉ dictGetD r₂.dependencies "services" [] := by
    intro r target htmem cond _ hPr r₂ hr₂
    by_cases hc : cond ∧ target.id ≠ repo.id
    · rw [if_pos hc] at hr₂
      subst hr₂
      refine ⟨hPr.1, hPr.2.1, ?_, ?_⟩
      · intro hin
        rcases add_dependency_mem r _ _ _ hin with hin | ⟨_, hk'⟩
        · exact hPr.2.2.1 hin
        · exact absurd hk' (by decide)
      · intro hin
        rcases add_dependency_mem r _ _ _ hin with hin | ⟨he, _⟩
        · exact hPr.2.2.2 hin
        · exact hc.2 (hnames target htmem repo hrepo he.symm)
    · rw [if_neg hc] at hr₂
      subst hr₂
      exact hPr
  have hP : r'.id = repo.id ∧ r'.name = repo.name ∧
      repo.name ∉ dictGetD r'.dependencies "repositories" [] ∧
      repo.name ∉ dictGetD r'.dependencies "services" [] := by
    rw [← hbody]
    by_cases hs : ¬ repo.scanned
    · rw [if_pos hs]
      exact ⟨rfl, rfl, (hinit repo hrepo).1, (hinit repo hrepo).2⟩
    · rw [if_neg hs]
      apply foldl_selfFree
      · intro r file_path _ hPr
        by_cases hcfg : ¬ (isConfigPath file_path = true ∨
            isServiceCodeFile file_path = true)
        · rw [if_pos hcfg]; exact hPr
        · rw [if_neg hcfg]
          simp only
          apply foldl_selfFree
          · intro r repo_name _ hPr
            by_cases hu : repo_name.length > 5 ∧ uh repo.id file_path repo_name
            · rw [if_pos hu]
              apply foldl_selfFree
              · intro r target htmem hPr
                exact htarget r target htmem _ hPr _ rfl
              · exact hPr
            · rw [if_neg hu]; exact hPr
          · apply foldl_selfFree
            · intro r m _ hPr
              by_cases hm : m ≠ ""
              · rw [if_pos hm]
                apply foldl_selfFree
                · intro r repo_name _ hPr
                  by_cases ht : strLower m.data = repo_name ∨
                      (repo_name.length > 5 ∧ strContains (strLower m.data) repo_name)
                  · rw [if_pos ht]
                    apply foldl_selfFree
                    · intro r target htmem hPr
                      exact htarget r target htmem _ hPr _ rfl
                    · exact hPr
                  · rw [if_neg ht]; exact hPr
                · exact hPr
              · rw [if_neg hm]; exact hPr
            · exact hPr
      · exact ⟨rfl, rfl, (hinit repo hrepo).1, (hinit repo hrepo).2⟩
  exact ⟨⟨repo, hrepo, hP.1, hP.2.1⟩, hP.2.1 ▸ hP.2.2.1, hP.2.1 ▸ hP.2.2.2⟩

/-- Inputs for the C7 counterexample: two distinct repositories (ids 1 and 2)
that share the name `"x"`; repository 2 owns an endpoint `/api/z`, and
repository 1 has a client call to it. -/
def c7x_A : Repo := { initRepo ⟨1, "x", "g/x1", some "main", "u"⟩ with scanned := true, analyzed_files := ["a.py"] }

def c7x_B : Repo := { initRepo ⟨2, "x", "g/x2", some "main", "u"⟩ with scanned := true }

def c7x_eps : List (String × List EndpointInfo) :=
  [("/api/z", [{ repo_id := 2, repo_name := "x", file_path := "b.py",
                 matched_text := "t" }])]

def c7x_cp : Nat → String → List String :=
  fun i f => if i = 1 ∧ f = "a.py" then ["/api/z"] else []

def c7x_result : List Repo :=
  find_service_connections (fun _ _ => []) (fun _ _ _ => false)
    (find_api_connections c7x_cp c7x_eps [c7x_A, c7x_B])

/-- Counterexample to C7 as stated: with two distinct repositories both named
`"x"`, the analyzer adds the endpoint owner's name `"x"` to the caller's
`dependencies['repositories']` — the self-exclusion guard compares ids
(`info['repo_id'] != repo.id`), not names, so the caller's own name appears. -/
theorem c7_counterexample :
    c7x_result.map (fun r => (r.name, dictGetD r.dependencies "repositories" [])) =
      [("x", ["x"]), ("x", [])] ∧
    (c7x_result.headD (initRepo ⟨0, "", "", none, ""⟩)).name ∈
      dictGetD (c7x_result.headD (initRepo ⟨0, "", "", none, ""⟩)).dependencies "repositories" [] := by
  constructor
  · decide
  · decide

/-- C7 (amended): both connection passes exclude self-edges by repository
**id**; consequently, when no two distinct repositories share a name (names
determine ids), when every endpoint-index entry records the id and name of one
of the analyzed repositories, and when no record starts with its own name
already present, then after the Connection Analyzer runs no repository's name
appears in its own `dependencies['repositories']` or
`dependencies['services']`. -/
theorem c7_no_self_edge (cp : Nat → String → List String)
    (eps : List (String × List EndpointInfo))
    (sm : Nat → String → List String) (uh : Nat → String → List Char → Bool)
    (repos : List Repo)
    (hnames : ∀ r ∈ repos, ∀ s ∈ repos, r.name = s.name → r.id = s.id)
    (heps : ∀ kv ∈ eps, ∀ info ∈ kv.2,
      ∃ t ∈ repos, t.id = info.repo_id ∧ t.name = info.repo_name)
    (hinit : ∀ r ∈ repos, r.name ∉ dictGetD r.dependencies "repositories" [] ∧
      r.name ∉ dictGetD r.dependencies "services" []) :
    ∀ r' ∈ find_service_connections sm uh (find_api_connections cp eps repos),
      r'.name ∉ dictGetD r'.dependencies "repositories" [] ∧
      r'.name ∉ dictGetD r'.dependencies "services" [] := by
  intro r' hr'
  have h1 := find_api_connections_safe cp eps repos hnames heps hinit
  have hnames₂ : ∀ a ∈ find_api_connections cp eps repos,
      ∀ b ∈ find_api_connections cp eps repos, a.name = b.name → a.id = b.id := by
    intro a ha b hb he
    obtain ⟨⟨ra, hra, haid, haname⟩, -, -⟩ := h1 a ha
    obtain ⟨⟨rb, hrb, hbid, hbname⟩, -, -⟩ := h1 b hb
    rw [haid, hbid]
    exact hnames ra hra rb hrb (by rw [← haname, ← hbname]; exact he)
  have hinit₂ : ∀ r ∈ find_api_connections cp eps repos,
      r.name ∉ dictGetD r.dependencies "repositories" [] ∧
      r.name ∉ dictGetD r.dependencies "services" [] :=
    fun r h => ⟨(h1 r h).2.1, (h1 r h).2.2⟩
  have h2 := find_service_connections_safe sm uh
    (find_api_connections cp eps repos) hnames₂ hinit₂ r' hr'
  exact ⟨h2.2.1, h2.2.2⟩

/-- Inputs for the C7 witness: distinct names `alpha`/`beta`, an endpoint of
`beta` called from `alpha`, and a service-reference match on `beta`. -/
def c7w_A : Repo :=
  { initRepo ⟨1, "alpha", "g/alpha", some "main", "u"⟩ with scanned := true, analyzed_files := ["a.py"] }

def c7w_B : Repo := { initRepo ⟨2, "beta", "g/beta", some "main", "u"⟩ with scanned := true }

def c7w_eps : List (String × List EndpointInfo) :=
  [("/api/z", [{ repo_id := 2, repo_name := "beta", file_path := "b.py",
                 matched_text := "t" }])]

def c7w_cp : Nat → String → List String :=
  fun i f => if i = 1 ∧ f = "a.py" then ["/api/z"] else []

def c7w_result : List Repo :=
  find_service_connections (fun _ _ => ["beta"]) (fun _ _ _ => false)
    (find_api_connections c7w_cp c7w_eps [c7w_A, c7w_B])

/-- Witness for C7: the no-self-edge theorem applied at a concrete two-repo
instance, discharging the name-injectivity, index-consistency and clean-start
hypotheses by evaluation. -/
theorem c7_no_self_edge_witness :
    (c7w_result.headD (initRepo ⟨0, "", "", none, ""⟩)).name ∉
      dictGetD (c7w_result.headD (initRepo ⟨0, "", "", none, ""⟩)).dependencies "repositories" [] ∧
    (c7w_result.headD (initRepo ⟨0, "", "", none, ""⟩)).name ∉
      dictGetD (c7w_result.headD (initRepo ⟨0, "", "", none, ""⟩)).dependencies "services" [] := by
  have h := c7_no_self_edge c7w_cp c7w_eps (fun _ _ => ["beta"]) (fun _ _ _ => false)
    [c7w_A, c7w_B] (by decide) (by decide) (by decide)
  exact h _ (by decide)

/-! ## C8: cross-repository dependency inference
(`analyzers/dependency.py`, `DependencyAnalyzer.find_cross_repo_dependencies`)

The input `repos_data` maps repository names to the per-repository analysis
result (`dependency_files`, each with parsed `dependencies` carrying `name`/
`version`/`type`).  The candidate table `repo_packages` is a Python dict: a
later repository whose simple name or variant collides with an earlier key
**overwrites** it, so each key has a single owner — the last writer. -/

/-- One parsed manifest dependency (`parse_dependencies` output). -/
structure ManifestDep where
  name : String
  version : String
  ecosystem : String
  deriving DecidableEq, Repr

/-- One entry of `result['dependency_files']` (`analyze_repository`). -/
structure DepFile where
  path : String
  kind : String
  dependencies : List ManifestDep
  deriving DecidableEq, Repr

/-- The per-repository info consumed by `find_cross_repo_dependencies`. -/
structure RepoInfo where
  dependency_files : List DepFile
  deriving DecidableEq, Repr

/-- `repo_name.replace('.git', '')`: delete every (left-to-right,
non-overlapping) occurrence of `.git`. -/
def replaceDotGit : List Char → List Char
  | '.' :: 'g' :: 'i' :: 't' :: rest => replaceDotGit rest
  | c :: rest => c :: replaceDotGit rest
  | [] => []

/-- `repo_name.split('/')[-1].replace('.git', '')`. -/
def simpleName (repo_name : String) : String :=
  ⟨replaceDotGit ((pySplit '/' repo_name.data).getLastD [])⟩

/-- The fixed suffix/prefix variants of a simple name. -/
def variations (simple : String) : List String :=
  [⟨simple.data ++ "-lib".data⟩, ⟨simple.data ++ "-api".data⟩,
   ⟨simple.data ++ "-client".data⟩, ⟨simple.data ++ "-service".data⟩,
   ⟨"lib-".data ++ simple.data⟩, ⟨"api-".data ++ simple.data⟩,
   ⟨simple.data ++ "-sdk".data⟩]

/-- The `repo_packages` candidate table: for each repository, its simple name
and each variant map to the repository, later writers overwriting earlier
ones on key collisions (dict semantics). -/
def repo_packages (repos_data : List (String × RepoInfo)) : List (String × String) :=
  repos_data.foldl (fun d kv =>
    (variations (simpleName kv.1)).foldl (fun d v => dictSet d v kv.1)
      (dictSet d (simpleName kv.1) kv.1)) []

/-- The `dependencies` accumulator built for one repository inside
`find_cross_repo_dependencies`: for every manifest dependency of the
repository and every candidate-table entry, when the (lowercased) key is a
substring of the (lowercased) dependency name and the owning repository
differs from the table target, the target is appended unless already present. -/
def cross_deps_for (repos_data : List (String × RepoInfo))
    (kv : String × RepoInfo) : List String :=
  kv.2.dependency_files.foldl (fun deps df =>
    df.dependencies.foldl (fun deps dep =>
      (repo_packages repos_data).foldl (fun deps pkg =>
        if strContains (strLower dep.name.data) (strLower pkg.1.data) = true ∧
            ¬ pkg.2 = kv.1 then
          (if pkg.2 ∈ deps then deps else deps ++ [pkg.2])
        else deps) deps) deps) []

/-- `DependencyAnalyzer.find_cross_repo_dependencies`: each repository with a
nonempty `dependencies` list contributes an entry. -/
def find_cross_repo_dependencies (repos_data : List (String × RepoInfo)) :
    List (String × List String) :=
  repos_data.foldl (fun acc kv =>
    if cross_deps_for repos_data kv ≠ [] then
      acc ++ [(kv.1, cross_deps_for repos_data kv)]
    else acc) []

/-- The edges recorded for one repository (`cross_repo_deps.get(a, [])`). -/
def edgesOf (result : List (String × List String)) (a : String) : List String :=
  dictGetD result a []

/-- Claim C8's edge criterion, as worded: some candidate key **for B** (B's
simple name or one of the fixed variants) is, case-insensitively, a substring
of one of A's dependency names, and A differs from B. -/
def claimed_edge (repos_data : List (String × RepoInfo)) (a b : String) : Prop :=
  ∃ kv ∈ repos_data, kv.1 = a ∧
    (∃ kv' ∈ repos_data, kv'.1 = b) ∧
    ∃ key ∈ simpleName b :: variations (simpleName b),
      ∃ df ∈ kv.2.dependency_files, ∃ dep ∈ df.dependencies,
        strContains (strLower dep.name.data) (strLower key.data) = true ∧ ¬ a = b

theorem dictHasKey_cons {β : Type} (a : String) (b : β) (rest : List (String × β))
    (k : String) :
    dictHasKey ((a, b) :: rest) k = (decide (a = k) || dictHasKey rest k) := by
  unfold dictHasKey
  by_cases h : a = k
  · rw [List.find?_cons_of_pos _ (by simpa using h)]; simp [h]
  · rw [List.find?_cons_of_neg _ (by simpa using h)]; simp [h]

theorem dictGetD_nil {β : Type} (k : String) (dflt : β) :
    dictGetD ([] : List (String × β)) k dflt = dflt := rfl

theorem dictHasKey_nil {β : Type} (k : String) :
    dictHasKey ([] : List (String × β)) k = false := rfl

theorem dictGetD_append {β : Type} (d₁ d₂ : List (String × β)) (k : String)
    (dflt : β) :
    dictGetD (d₁ ++ d₂) k dflt =
      if dictHasKey d₁ k then dictGetD d₁ k dflt else dictGetD d₂ k dflt := by
  induction d₁ with
  | nil => rw [List.nil_append, dictHasKey_nil]; simp
  | cons kv rest ih =>
    obtain ⟨a, b⟩ := kv
    rw [List.cons_append, dictGetD_cons, dictHasKey_cons, dictGetD_cons]
    by_cases h : a = k
    · simp [h]
    · simp only [h, if_false, decide_eq_true_eq, decide_eq_false_iff_not,
        not_false_iff, Bool.false_or]
      rw [ih]
      simp [h]

theorem dictHasKey_append {β : Type} (d₁ d₂ : List (String × β)) (k : String) :
    dictHasKey (d₁ ++ d₂) k = (dictHasKey d₁ k || dictHasKey d₂ k) := by
  induction d₁ with
  | nil => rw [List.nil_append, dictHasKey_nil, Bool.false_or]
  | cons kv rest ih =>
    obtain ⟨a, b⟩ := kv
    rw [List.cons_append, dictHasKey_cons, dictHasKey_cons, ih, Bool.or_assoc]

theorem foldl_mem_iff {σ : Type} (F : List String → σ → List String)
    (Q : σ → String → Prop)
    (hF : ∀ acc x b, b ∈ F acc x ↔ b ∈ acc ∨ Q x b) :
    ∀ (l : List σ) (acc : List String) (b : String),
      b ∈ l.foldl F acc ↔ b ∈ acc ∨ ∃ x ∈ l, Q x b := by
  intro l
  induction l with
  | nil => intro acc b; simp
  | cons x t ih =>
    intro acc b
    rw [List.foldl_cons, ih, hF]
    constructor
    · rintro ((h | h) | ⟨y, hy, hQ⟩)
      · exact Or.inl h
      · exact Or.inr ⟨x, List.mem_cons_self _ _, h⟩
      · exact Or.inr ⟨y, List.mem_cons_of_mem _ hy, hQ⟩
    · rintro (h | ⟨y, hy, hQ⟩)
      · exact Or.inl (Or.inl h)
      · rcases List.mem_cons.mp hy with rfl | hy
        · exact Or.inl (Or.inr hQ)
        · exact Or.inr ⟨y, hy, hQ⟩

theorem cross_deps_for_mem (repos_data : List (String × RepoInfo))
    (kv : String × RepoInfo) (x : String) :
    x ∈ cross_deps_for repos_data kv ↔
      ∃ df ∈ kv.2.dependency_files, ∃ dep ∈ df.dependencies,
        ∃ pkg ∈ repo_packages repos_data,
          (strContains (strLower dep.name.data) (strLower pkg.1.data) = true ∧
            ¬ pkg.2 = kv.1) ∧ pkg.2 = x := by
  have lvl1 : ∀ (dep : ManifestDep) (acc : List String) (y : String),
      y ∈ (repo_packages repos_data).foldl (fun deps pkg =>
        if strContains (strLower dep.name.data) (strLower pkg.1.data) = true ∧
            ¬ pkg.2 = kv.1 then
          (if pkg.2 ∈ deps then deps else deps ++ [pkg.2])
        else deps) acc ↔
      y ∈ acc ∨ ∃ pkg ∈ repo_packages repos_data,
        (strContains (strLower dep.name.data) (strLower pkg.1.data) = true ∧
          ¬ pkg.2 = kv.1) ∧ pkg.2 = y := by
    intro dep acc y
    apply foldl_mem_iff
    intro acc' pkg z
    by_cases hc : strContains (strLower dep.name.data) (strLower pkg.1.data) = true ∧
        ¬ pkg.2 = kv.1
    · rw [if_pos hc]
      by_cases hm : pkg.2 ∈ acc'
      · rw [if_pos hm]
        constructor
        · exact Or.inl
        · rintro (h | ⟨-, rfl⟩)
          · exact h
          · exact hm
      · rw [if_neg hm, List.mem_append, List.mem_singleton]
        constructor
        · rintro (h | rfl)
          · exact Or.inl h
          · exact Or.inr ⟨hc, rfl⟩
        · rintro (h | ⟨-, rfl⟩)
          · exact Or.inl h
          · exact Or.inr rfl
    · rw [if_neg hc]
      constructor
      · exact Or.inl
      · rintro (h | ⟨hc', -⟩)
        · exact h
        · exact absurd hc' hc
  have lvl2 : ∀ (df : DepFile) (acc : List String) (y : String),
      y ∈ df.dependencies.foldl (fun deps dep =>
        (repo_packages repos_data).foldl (fun deps pkg =>
          if strContains (strLower dep.name.data) (strLower pkg.1.data) = true ∧
              ¬ pkg.2 = kv.1 then
            (if pkg.2 ∈ deps then deps else deps ++ [pkg.2])
          else deps) deps) acc ↔
      y ∈ acc ∨ ∃ dep ∈ df.dependencies, ∃ pkg ∈ repo_packages repos_data,
        (strContains (strLower dep.name.data) (strLower pkg.1.data) = true ∧
          ¬ pkg.2 = kv.1) ∧ pkg.2 = y := by
    intro df acc y
    apply foldl_mem_iff
    intro acc' dep z
    exact lvl1 dep acc' z
  unfold cross_deps_for
  have h3 := foldl_mem_iff
    (fun deps df => df.dependencies.foldl (fun deps dep =>
      (repo_packages repos_data).foldl (fun deps pkg =>
        if strContains (strLower dep.name.data) (strLower pkg.1.data) = true ∧
            ¬ pkg.2 = kv.1 then
          (if pkg.2 ∈ deps then deps else deps ++ [pkg.2])
        else deps) deps) deps)
    (fun df y => ∃ dep ∈ df.dependencies, ∃ pkg ∈ repo_packages repos_data,
      (strContains (strLower dep.name.data) (strLower pkg.1.data) = true ∧
        ¬ pkg.2 = kv.1) ∧ pkg.2 = y)
    (fun acc' df z => lvl2 df acc' z) kv.2.dependency_files [] x
  simpa using h3

theorem find_cross_foldl_getD (repos_data : List (String × RepoInfo)) (a : String) :
    ∀ (l : List (String × RepoInfo)) (acc : List (String × List String)),
      (l.map Prod.fst).Nodup →
      (∀ kv ∈ l, dictHasKey acc kv.1 = false) →
      ∀ x, (x ∈ dictGetD (l.foldl (fun acc kv =>
          if cross_deps_for repos_data kv ≠ [] then
            acc ++ [(kv.1, cross_deps_for repos_data kv)]
          else acc) acc) a [] ↔
        x ∈ dictGetD acc a [] ∨
        ∃ kv ∈ l, kv.1 = a ∧ x ∈ cross_deps_for repos_data kv) := by
  intro l
  induction l with
  | nil => intro acc _ _ x; simp
  | cons kv t ih =>
    intro acc hnodup hkeys x
    rw [List.foldl_cons]
    have hnodup' : (t.map Prod.fst).Nodup := by
      rw [List.map_cons] at hnodup; exact hnodup.of_cons
    have hhead : kv.1 ∉ t.map Prod.fst := by
      rw [List.map_cons] at hnodup; exact (List.nodup_cons.mp hnodup).1
    by_cases hd : cross_deps_for repos_data kv ≠ []
    · rw [if_pos hd]
      have hkeys' : ∀ kv' ∈ t,
          dictHasKey (acc ++ [(kv.1, cross_deps_for repos_data kv)]) kv'.1 = false := by
        intro kv' hkv'
        rw [dictHasKey_append, Bool.or_eq_false_iff]
        refine ⟨hkeys kv' (List.mem_cons_of_mem _ hkv'), ?_⟩
        rw [dictHasKey_cons, dictHasKey_nil, Bool.or_eq_false_iff]
        refine ⟨?_, rfl⟩
        simp only [decide_eq_false_iff_not]
        intro he
        exact hhead (he ▸ List.mem_map_of_mem Prod.fst hkv')
      rw [ih _ hnodup' hkeys' x]
      have hx0 : ∀ h : dictHasKey acc a = false, x ∈ dictGetD acc a [] ↔ False := by
        intro h
        rw [dictGetD_of_not_hasKey _ h]
        simp
      have hacc : x ∈ dictGetD (acc ++ [(kv.1, cross_deps_for repos_data kv)]) a [] ↔
          x ∈ dictGetD acc a [] ∨ (kv.1 = a ∧ x ∈ cross_deps_for repos_data kv) := by
        rw [dictGetD_append]
        by_cases hk : dictHasKey acc a = true
        · rw [if_pos hk]
          constructor
          · exact Or.inl
          · rintro (h | ⟨he, hx⟩)
            · exact h
            · exfalso
              have hf := hkeys kv (List.mem_cons_self _ _)
              rw [he, hk] at hf
              exact Bool.true_eq_false.mp hf
        · rw [if_neg hk]
          have hkf : dictHasKey acc a = false := by
            rwa [Bool.not_eq_true] at hk
          rw [dictGetD_cons, dictGetD_nil]
          by_cases he : kv.1 = a
          · rw [if_pos he]
            constructor
            · intro h; exact Or.inr ⟨he, h⟩
            · rintro (h | ⟨-, h⟩)
              · exact ((hx0 hkf).mp h).elim
              · exact h
          · rw [if_neg he]
            constructor
            · intro h; exact absurd h (List.not_mem_nil x)
            · rintro (h | ⟨he', -⟩)
              · exact ((hx0 hkf).mp h).elim
              · exact absurd he' he
      rw [hacc]
      constructor
      · rintro ((h | h) | h)
        · exact Or.inl h
        · exact Or.inr ⟨kv, List.mem_cons_self _ _, h.1, h.2⟩
        · obtain ⟨kv', h1, h2, h3⟩ := h
          exact Or.inr ⟨kv', List.mem_cons_of_mem _ h1, h2, h3⟩
      · rintro (h | ⟨kv', h1, h2, h3⟩)
        · exact Or.inl (Or.inl h)
        · rcases List.mem_cons.mp h1 with rfl | h1
          · exact Or.inl (Or.inr ⟨h2, h3⟩)
          · exact Or.inr ⟨kv', h1, h2, h3⟩
    · rw [if_neg hd]
      have hde : cross_deps_for repos_data kv = [] := not_ne_iff.mp hd
      rw [ih _ hnodup' (fun kv' h => hkeys kv' (List.mem_cons_of_mem _ h)) x]
      constructor
      · rintro (h | ⟨kv', h1, h2, h3⟩)
        · exact Or.inl h
        · exact Or.inr ⟨kv', List.mem_cons_of_mem _ h1, h2, h3⟩
      · rintro (h | ⟨kv', h1, h2, h3⟩)
        · exact Or.inl h
        · rcases List.mem_cons.mp h1 with rfl | h1
          · rw [hde] at h3
            exact absurd h3 (List.not_mem_nil x)
          · exact Or.inr ⟨kv', h1, h2, h3⟩

/-- Inputs for the C8 counterexample: both `billing-service` and `billing`
exist, so the candidate key `billing-service` (simple name of the former,
variant of the latter) is overwritten in the dict by the later repository
`billing`; `app` has a manifest dependency `x-billing-service`. -/
def c8x_info_empty : RepoInfo := { dependency_files := [] }

def c8x_app_info : RepoInfo :=
  { dependency_files :=
      [{ path := "requirements.txt", kind := "requirements.txt",
         dependencies := [{ name := "x-billing-service", version := "1.0",
                            ecosystem := "python" }] }] }

def c8x_data : List (String × RepoInfo) :=
  [("billing-service", c8x_info_empty), ("billing", c8x_info_empty),
   ("app", c8x_app_info)]

/-- Counterexample to C8 as stated: `billing-service` is a candidate key for
the repository `billing-service` (its simple name) and is a substring of
`app`'s dependency `x-billing-service`, so the claim's "exactly when" requires
an edge `app → billing-service`; but the dict table maps the colliding key
`billing-service` to its **last** writer `billing` (whose variant it also is),
so the code records only `app → billing`. -/
theorem c8_counterexample :
    claimed_edge c8x_data "app" "billing-service" ∧
    "billing-service" ∉ edgesOf (find_cross_repo_dependencies c8x_data) "app" ∧
    edgesOf (find_cross_repo_dependencies c8x_data) "app" = ["billing"] := by
  refine ⟨?_, by decide, by decide⟩
  unfold claimed_edge
  decide

/-- C8 (amended): provided repository names are unique, the cross-repository
pass records an edge from A to B exactly when the **candidate table** — in
which later repositories overwrite earlier ones on key collisions — has an
entry `(K, B)` with K, case-insensitively, a substring of one of A's manifest
dependency names, and B ≠ A; edges are deduplicated by target. -/
theorem c8_cross_repo (repos_data : List (String × RepoInfo))
    (hkeys : (repos_data.map Prod.fst).Nodup) (a b : String) :
    b ∈ edgesOf (find_cross_repo_dependencies repos_data) a ↔
      ∃ kv ∈ repos_data, kv.1 = a ∧
        ∃ df ∈ kv.2.dependency_files, ∃ dep ∈ df.dependencies,
          ∃ pkg ∈ repo_packages repos_data,
            strContains (strLower dep.name.data) (strLower pkg.1.data) = true ∧
            pkg.2 = b ∧ ¬ b = a := by
  unfold edgesOf find_cross_repo_dependencies
  rw [find_cross_foldl_getD repos_data a repos_data [] hkeys
    (fun kv _ => dictHasKey_nil kv.1) b, dictGetD_nil]
  constructor
  · rintro (h | ⟨kv, h1, h2, h3⟩)
    · exact absurd h (List.not_mem_nil b)
    · rw [cross_deps_for_mem] at h3
      obtain ⟨df, hdf, dep, hdep, pkg, hpkg, ⟨hsub, hne⟩, he⟩ := h3
      exact ⟨kv, h1, h2, df, hdf, dep, hdep, pkg, hpkg, hsub, he,
        by rw [← he, ← h2]; exact hne⟩
  · rintro ⟨kv, h1, h2, df, hdf, dep, hdep, pkg, hpkg, hsub, he, hba⟩
    refine Or.inr ⟨kv, h1, h2, ?_⟩
    rw [cross_deps_for_mem]
    exact ⟨df, hdf, dep, hdep, pkg, hpkg, ⟨hsub, by rw [he, h2]; exact hba⟩, he⟩

/-- Inputs for the C8 witness: the spec's own scenario — `billing-service`
depends on `acme-billing-client`, and repository `billing` has the candidate
variant `billing-client`. -/
def c8w_data : List (String × RepoInfo) :=
  [("billing", c8x_info_empty),
   ("billing-service",
    { dependency_files :=
        [{ path := "package.json", kind := "package.json",
           dependencies := [{ name := "acme-billing-client", version := "1.0",
                              ecosystem := "npm" }] }] })]

/-- Witness for C8: the characterization applied at the billing scenario —
the edge `billing-service → billing` exists via the variant `billing-client`. -/
theorem c8_cross_repo_witness :
    "billing" ∈ edgesOf (find_cross_repo_dependencies c8w_data) "billing-service" :=
  (c8_cross_repo c8w_data (by decide) "billing-service" "billing").mpr (by decide)

/-! ## C1/C2: the scan orchestrator (`core/scanner.py`)

The remote provider is modeled per handle by a `ProviderOutcome`: the result
of `gitlab.projects.get`, of `repository_tree`, of each `files.get`, and the
wall-clock duration of the whole `_scan_project` body in seconds.  Exceptions
are `Except.error` values of `PyExc`.  Detectors are opaque record
transformers (`detect` never raises, per the base-detector contract).

The `@timeout(30)` decorator on `_scan_project` (`core/utils.py`) joins the
worker thread for its **argument** — the literal 30 written at the decoration
site.  The source comment says "Default timeout, will be overridden", but
nothing ever overrides it: the `timeout_seconds` parameter of `_scan_project`
is only interpolated into log messages.  The decorator's `TimeoutError` is
raised in the wrapper, propagates out of `future.result()`, and is caught by
the `except Exception` arm of the `scan` loop — the repository is counted as
a failure either way.

The thread pool (`max_workers` = `min(concurrent_scans, N)`, see C4) affects
scheduling only; the collected record list and the failure count are modeled
in submission order, which carries the same multiset of results. -/

/-- The exceptions the embedded scanner distinguishes. -/
inductive PyExc where
  | gitlabGetError (is404 : Bool)
  | timeoutError
  | other
  deriving DecidableEq, Repr

/-- The provider's behavior for one repository handle. -/
structure ProviderOutcome where
  projectGet : Except PyExc ProjectDetails
  tree : Except PyExc (List String)
  fileContent : String → Except PyExc String
  scanDuration : Nat

/-- `GitLabScanner._scan_repository_files`: fetch the recursive tree (a
failure is caught by the method's own `except Exception`, which logs and
returns with the record untouched), record `total_files`, then for each path
matching the extension allow-list fetch the content (failures skip the file)
and run every detector before appending to `analyzed_files`. -/
def scan_repository_files (detectors : List (Repo → String → String → Repo))
    (o : ProviderOutcome) (file_extensions : List String) (repo : Repo) : Repo :=
  match o.tree with
  | Except.error _ => repo
  | Except.ok tree =>
    tree.foldl (fun r path =>
      if ¬ file_extensions.any (fun ext => strEndsWith path.data ext.data) then r
      else match o.fileContent path with
        | Except.error _ => r
        | Except.ok content =>
          let r := detectors.foldl (fun r d => d r content path) r
          { r with analyzed_files := r.analyzed_files ++ [path]
                   analyzed_files_count := r.analyzed_files_count + 1 })
      { repo with total_files := tree.length }

/-- The body of `GitLabScanner._scan_project`: resolve the project (any
`GitlabGetError` or other exception yields `None`), build the record, run the
file scan, mark `scanned`.  The `timeout_seconds` argument is unused beyond
log messages, exactly as in the source. -/
def scan_project (detectors : List (Repo → String → String → Repo))
    (file_extensions : List String) (o : ProviderOutcome)
    (timeout_seconds : Int) : Option Repo :=
  match o.projectGet with
  | Except.error _ => none
  | Except.ok details =>
    let repo := initRepo details
    let repo := scan_repository_files detectors o file_extensions repo
    some { repo with scanned := true }

/-- `_scan_project` as decorated by `@timeout(30)`: the wrapper raises
`TimeoutError` whenever the body outlives the **hardcoded** 30 seconds,
independent of the configured `timeout_seconds`. -/
def scan_project_with_timeout (detectors : List (Repo → String → String → Repo))
    (file_extensions : List String) (o : ProviderOutcome)
    (timeout_seconds : Int) : Except PyExc (Option Repo) :=
  if o.scanDuration > 30 then Except.error PyExc.timeoutError
  else Except.ok (scan_project detectors file_extensions o timeout_seconds)

/-- What the `scan` loop accumulates: completed records, and the count of
handles whose future returned `None` or raised. -/
structure ScanResult where
  repositories : List Repo
  failures : Nat
  deriving DecidableEq, Repr

/-- The collection loop of `GitLabScanner.scan`: every future is consumed;
a `None` result or an exception is reported and counted, never re-raised. -/
def scan (detectors : List (Repo → String → String → Repo))
    (file_extensions : List String) (outcomes : List ProviderOutcome)
    (timeout_seconds : Int) : ScanResult :=
  outcomes.foldl (fun acc o =>
    match scan_project_with_timeout detectors file_extensions o timeout_seconds with
    | Except.ok (some repo) => { acc with repositories := acc.repositories ++ [repo] }
    | Except.ok none => { acc with failures := acc.failures + 1 }
    | Except.error _ => { acc with failures := acc.failures + 1 }) ⟨[], 0⟩

/-- The scanner's fallback extension allow-list (`scanner.py` line 209). -/
def default_file_extensions : List String := [".py", ".js", ".java", ".yml", ".yaml"]

/-- A well-behaved handle for the C1 counterexample (project resolves, empty
tree, nothing to fetch, instantaneous). -/
def c1x_ok : ProviderOutcome :=
  { projectGet := Except.ok ⟨1, "r", "g/r", some "main", "u"⟩
    tree := Except.ok []
    fileContent := fun _ => Except.error (PyExc.gitlabGetError true)
    scanDuration := 0 }

/-- The handle whose recursive tree listing raises a provider 404. -/
def c1x_tree404 : ProviderOutcome :=
  { c1x_ok with tree := Except.error (PyExc.gitlabGetError true) }

def c1x_outcomes : List ProviderOutcome := List.replicate 9 c1x_ok ++ [c1x_tree404]

/-- Counterexample to C1 as stated: with 10 handles of which exactly one
raises a 404 on the recursive tree listing, the orchestrator returns **10**
completed records and **0** failures — the tree-listing error is swallowed by
`_scan_repository_files`'s own `except Exception`, after which `_scan_project`
marks the record scanned and returns it; the claimed 9 + 1 split does not
occur. -/
theorem c1_counterexample :
    (scan [] default_file_extensions c1x_outcomes 30).repositories.length = 10 ∧
    (scan [] default_file_extensions c1x_outcomes 30).failures = 0 ∧
    ¬ ((scan [] default_file_extensions c1x_outcomes 30).repositories.length = 9 ∧
       (scan [] default_file_extensions c1x_outcomes 30).failures = 1) := by
  refine ⟨by decide, by decide, by decide⟩

/-- C1 (amended): the orchestration is total — every handle is accounted for,
completed + failed = attempted, and the collection loop never re-raises; a
handle completes exactly when its project resolution succeeds and its scan
fits the decorator's hardcoded 30-second budget — a failing **tree listing**
does not abort the repository: the error is swallowed inside
`_scan_repository_files` and the handle still yields a completed record
(scanned, with zero analyzed files). -/
theorem c1_failure_containment (detectors : List (Repo → String → String → Repo))
    (exts : List String) (timeout_seconds : Int) :
    (∀ outcomes : List ProviderOutcome,
      (scan detectors exts outcomes timeout_seconds).repositories.length +
        (scan detectors exts outcomes timeout_seconds).failures = outcomes.length ∧
      (scan detectors exts outcomes timeout_seconds).repositories.length =
        (outcomes.filter (fun o =>
          o.projectGet.isOk && decide (o.scanDuration ≤ 30))).length) ∧
    (∀ (o : ProviderOutcome) (d : ProjectDetails), o.projectGet = Except.ok d →
      ∀ e : PyExc, o.tree = Except.error e →
      scan_project detectors exts o timeout_seconds =
        some { initRepo d with scanned := true }) := by
  constructor
  · intro outcomes
    induction outcomes using List.reverseRecOn with
    | nil => exact ⟨rfl, rfl⟩
    | append_singleton t o ih =>
      obtain ⟨ih1, ih2⟩ := ih
      by_cases hdur : o.scanDuration > 30
      · have hswt : scan_project_with_timeout detectors exts o timeout_seconds =
            Except.error PyExc.timeoutError := by
          unfold scan_project_with_timeout
          rw [if_pos hdur]
        have hscan : scan detectors exts (t ++ [o]) timeout_seconds =
            { repositories := (scan detectors exts t timeout_seconds).repositories
              failures := (scan detectors exts t timeout_seconds).failures + 1 } := by
          unfold scan
          rw [List.foldl_append, List.foldl_cons, List.foldl_nil, hswt]
        have hpred : (o.projectGet.isOk && decide (o.scanDuration ≤ 30)) = false := by
          have h30 : decide (o.scanDuration ≤ 30) = false := by
            simp only [decide_eq_false_iff_not]
            omega
          rw [h30, Bool.and_false]
        rw [hscan, List.filter_append,
          List.filter_cons_of_neg (by rw [hpred]; exact Bool.false_ne_true),
          List.filter_nil]
        constructor
        · simp
          omega
        · simpa using ih2
      · cases hpg : o.projectGet with
        | error e =>
          have hswt : scan_project_with_timeout detectors exts o timeout_seconds =
              Except.ok none := by
            unfold scan_project_with_timeout scan_project
            rw [if_neg hdur, hpg]
          have hscan : scan detectors exts (t ++ [o]) timeout_seconds =
              { repositories := (scan detectors exts t timeout_seconds).repositories
                failures := (scan detectors exts t timeout_seconds).failures + 1 } := by
            unfold scan
            rw [List.foldl_append, List.foldl_cons, List.foldl_nil, hswt]
          have hpred : (o.projectGet.isOk && decide (o.scanDuration ≤ 30)) = false := by
            rw [hpg]
            rfl
          rw [hscan, List.filter_append,
            List.filter_cons_of_neg (by rw [hpred]; exact Bool.false_ne_true),
            List.filter_nil]
          constructor
          · simp
            omega
          · simpa using ih2
        | ok d =>
          have hswt : scan_project_with_timeout detectors exts o timeout_seconds =
              Except.ok (some { scan_repository_files detectors o exts (initRepo d)
                with scanned := true }) := by
            unfold scan_project_with_timeout scan_project
            rw [if_neg hdur, hpg]
          have hscan : scan detectors exts (t ++ [o]) timeout_seconds =
              { repositories := (scan detectors exts t timeout_seconds).repositories ++
                  [{ scan_repository_files detectors o exts (initRepo d)
                     with scanned := true }]
                failures := (scan detectors exts t timeout_seconds).failures } := by
            unfold scan
            rw [List.foldl_append, List.foldl_cons, List.foldl_nil, hswt]
          have hpred : (o.projectGet.isOk && decide (o.scanDuration ≤ 30)) = true := by
            rw [hpg]
            show (true && decide (o.scanDuration ≤ 30)) = true
            have h30 : o.scanDuration ≤ 30 := by omega
            simp [h30]
          rw [hscan, List.filter_append, List.filter_cons_of_pos (by rw [hpred]),
            List.filter_nil]
          constructor
          · simp
            omega
          · simp
            omega
  · intro o d hd e he
    unfold scan_project scan_repository_files
    rw [hd, he]

/-- Witness for C1: the tree-404 handle of the counterexample still yields a
completed record, via the amended theorem's swallowing clause with its
hypotheses discharged by evaluation. -/
theorem c1_failure_containment_witness :
    scan_project [] default_file_extensions c1x_tree404 30 =
      some { initRepo ⟨1, "r", "g/r", some "main", "u"⟩ with scanned := true } :=
  (c1_failure_containment [] default_file_extensions 30).2 c1x_tree404
    ⟨1, "r", "g/r", some "main", "u"⟩ rfl (PyExc.gitlabGetError true) rfl

/-- A handle that resolves fine but whose scan takes 20 seconds. -/
def c2x_out : ProviderOutcome :=
  { projectGet := Except.ok ⟨1, "slow", "g/slow", some "main", "u"⟩
    tree := Except.ok []
    fileContent := fun _ => Except.error (PyExc.gitlabGetError true)
    scanDuration := 20 }

/-- The same handle taking 40 seconds. -/
def c2x_out40 : ProviderOutcome := { c2x_out with scanDuration := 40 }

/-- C2: the enacted per-repository timeout is the decorator's hardcoded 30
seconds, not the configured `timeout_seconds` — the decoration site's comment
("Default timeout, will be overridden") promises the override that never
happens.  With `timeout_seconds = 10`, a 20-second scan still completes (the
claim requires it dropped); with `timeout_seconds = 300`, a 40-second scan is
dropped. -/
theorem c2_hardcoded_timeout :
    (scan [] default_file_extensions [c2x_out] 10).repositories.length = 1 ∧
    (scan [] default_file_extensions [c2x_out] 10).failures = 0 ∧
    (20 : Nat) > 10 ∧
    (scan [] default_file_extensions [c2x_out40] 300).repositories.length = 0 ∧
    (scan [] default_file_extensions [c2x_out40] 300).failures = 1 := by
  refine ⟨by decide, by decide, by decide, by decide, by decide⟩

/-! ## C9: the summary builder (`reporting/summary.py`, `generate_summary`)

A full embedding of `generate_summary` as a function of the record list.  The
source reads only its argument: no clock, no randomness, no I/O, no mutation
of the input records (it builds fresh dicts/lists; `repo.dependencies` lists
are aliased into the output but never written).  Python iteration orders
(dict/`defaultdict`/`Counter` insertion order, stable `sorted`) are all
deterministic functions of the input, embedded below.

One quirk kept faithfully: `tech_name not in all_technologies[category]`
tests a *string* against a list of *dicts* and is therefore always true, so
the per-category technology list appends a `{'name': …, 'count': 1}` entry for
every observation and the increment branch is dead.  Likewise
`setup.get('type', 'text')` is evaluated on entries that only have
`content`/`path` keys, so it always yields `'text'`. -/

/-- One `{'name': …, 'count': …}` entry of a per-category technology list. -/
structure TechCount where
  name : String
  count : Nat
  deriving DecidableEq, Repr

/-- One connection entry `{'source': …, 'target': …, 'type': …}`. -/
structure Conn where
  source : String
  target : String
  ctype : String
  deriving DecidableEq, Repr

/-- `_summarize_repo_documentation`'s result. -/
structure RepoDocSummary where
  has_readme : Bool
  has_api_docs : Bool
  has_setup_instructions : Bool
  has_architecture_info : Bool
  deriving DecidableEq, Repr

/-- One element of the `repositories` section. -/
structure RepoSummary where
  id : Nat
  name : String
  path : String
  web_url : String
  technologies : List String
  apis : Nat
  documentation : RepoDocSummary
  conn_dependencies : List String
  conn_services : List String
  deriving DecidableEq, Repr

/-- One extracted setup/architecture reference in the documentation summary. -/
structure DocRef where
  repository : String
  path : String
  kind : String
  deriving DecidableEq, Repr

/-- `_generate_documentation_summary`'s result. -/
structure DocsSummary where
  repos_with_readme : Nat
  repos_with_api_docs : Nat
  repos_with_setup : Nat
  repos_with_architecture : Nat
  total_repositories : Nat
  setup_instructions : List DocRef
  architecture_overview : List DocRef
  deriving DecidableEq, Repr

/-- The full summary structure returned by `generate_summary` (the empty-input
early return carries zeros and empty containers). -/
structure SummaryOut where
  total_repositories : Nat
  scanned_repositories : Nat
  total_technologies : Nat
  top_technologies : List (String × Nat)
  repositories : List RepoSummary
  technologies : List (String × List TechCount)
  api_connections : List Conn
  service_dependencies : List Conn
  documentation : DocsSummary
  deriving DecidableEq, Repr

/-- `Counter[k] += 1` on an insertion-ordered counter. -/
def counterIncr : List (String × Nat) → String → List (String × Nat)
  | [], k => [(k, 1)]
  | (k', n) :: rest, k =>
    if k' = k then (k, n + 1) :: rest else (k', n) :: counterIncr rest k

/-- Stable insertion keeping descending counts (ties keep encounter order);
folding it over a list is Python's stable `sorted(key=count, reverse=True)`. -/
def insertDescTC (x : TechCount) : List TechCount → List TechCount
  | [] => [x]
  | y :: rest => if y.count < x.count then x :: y :: rest else y :: insertDescTC x rest

def sortTechDesc (l : List TechCount) : List TechCount :=
  l.foldl (fun acc x => insertDescTC x acc) []

/-- The same stable descending sort on counter items (`Counter.most_common`). -/
def insertDescPair (x : String × Nat) : List (String × Nat) → List (String × Nat)
  | [] => [x]
  | y :: rest => if y.2 < x.2 then x :: y :: rest else y :: insertDescPair x rest

def sortPairsDesc (l : List (String × Nat)) : List (String × Nat) :=
  l.foldl (fun acc x => insertDescPair x acc) []

/-- The accumulators threaded by `generate_summary`'s main loop. -/
structure SummaryAcc where
  all_technologies : List (String × List TechCount)
  technology_counts : List (String × Nat)
  api_connections : List Conn
  service_dependencies : List Conn
  repos_summary : List RepoSummary
  deriving Repr

/-- The always-append update of `all_technologies[category]` (the string-in-
list-of-dicts membership test is constantly false, so the source always
appends a fresh `{'name': …, 'count': 1}`; `defaultdict` creates the category
key on first touch). -/
def allTechAppend (d : List (String × List TechCount)) (cat name : String) :
    List (String × List TechCount) :=
  dictSet d cat (dictGetD d cat [] ++ [{ name := name, count := 1 }])

/-- `_summarize_repo_documentation`. -/
def summarize_repo_documentation (repo : Repo) : RepoDocSummary :=
  { has_readme := repo.readme.isSome
    has_api_docs := decide (repo.api_docs ≠ [])
    has_setup_instructions := decide (repo.setup_instructions ≠ [])
    has_architecture_info := decide (repo.architecture ≠ []) }

/-- One iteration of `generate_summary`'s per-repository loop (unscanned
records are skipped; the `(category, name)` observation stream updates the
category lists and the counter, and the per-repo summary entry is appended). -/
def summaryStep (acc : SummaryAcc) (repo : Repo) : SummaryAcc :=
  if ¬ repo.scanned then acc
  else
    let techPairs := repo.technologies.foldl
      (fun l kv => l ++ kv.2.map (fun t => (kv.1, t.name))) []
    { all_technologies :=
        techPairs.foldl (fun d p => allTechAppend d p.1 p.2) acc.all_technologies
      technology_counts :=
        techPairs.foldl (fun c p => counterIncr c p.2) acc.technology_counts
      api_connections := acc.api_connections ++
        (dictGetD repo.dependencies "repositories" []).map
          (fun dep => { source := repo.name, target := dep, ctype := "api" })
      service_dependencies := acc.service_dependencies ++
        (dictGetD repo.dependencies "services" []).map
          (fun s => { source := repo.name, target := s, ctype := "service" })
      repos_summary := acc.repos_summary ++
        [{ id := repo.id, name := repo.name, path := repo.path,
           web_url := repo.web_url, technologies := techPairs.map Prod.snd,
           apis := repo.apis.length,
           documentation := summarize_repo_documentation repo,
           conn_dependencies := dictGetD repo.dependencies "repositories" [],
           conn_services := dictGetD repo.dependencies "services" [] }] }

/-- `_generate_documentation_summary` (counts over scanned records;
`total_repositories` counts all; every extracted reference's type is the
`'text'` default, see the section comment). -/
def generate_documentation_summary (repositories : List Repo) : DocsSummary :=
  repositories.foldl (fun acc repo =>
    if ¬ repo.scanned then acc
    else
      let acc := if repo.readme.isSome then
        { acc with repos_with_readme := acc.repos_with_readme + 1 } else acc
      let acc := if repo.api_docs ≠ [] then
        { acc with repos_with_api_docs := acc.repos_with_api_docs + 1 } else acc
      let acc := if repo.setup_instructions ≠ [] then
        { acc with
          repos_with_setup := acc.repos_with_setup + 1
          setup_instructions := acc.setup_instructions ++
            repo.setup_instructions.map (fun s =>
              { repository := repo.name, path := s.path, kind := "text" }) }
        else acc
      if repo.architecture ≠ [] then
        { acc with
          repos_with_architecture := acc.repos_with_architecture + 1
          architecture_overview := acc.architecture_overview ++
            repo.architecture.map (fun s =>
              { repository := repo.name, path := s.path, kind := "text" }) }
      else acc)
    { repos_with_readme := 0, repos_with_api_docs := 0, repos_with_setup := 0
      repos_with_architecture := 0, total_repositories := repositories.length
      setup_instructions := [], architecture_overview := [] }

/-- `generate_summary`. -/
def generate_summary (repositories : List Repo) : SummaryOut :=
  if repositories.isEmpty then
    { total_repositories := 0, scanned_repositories := 0, total_technologies := 0
      top_technologies := [], repositories := [], technologies := []
      api_connections := [], service_dependencies := []
      documentation :=
        { repos_with_readme := 0, repos_with_api_docs := 0, repos_with_setup := 0
          repos_with_architecture := 0, total_repositories := 0
          setup_instructions := [], architecture_overview := [] } }
  else
    let acc := repositories.foldl summaryStep ⟨[], [], [], [], []⟩
    { total_repositories := repositories.length
      scanned_repositories := (repositories.filter (fun r => r.scanned)).length
      total_technologies := acc.technology_counts.length
      top_technologies := (sortPairsDesc acc.technology_counts).take 10
      repositories := acc.repos_summary
      technologies := acc.all_technologies.map (fun kv => (kv.1, sortTechDesc kv.2))
      api_connections := acc.api_connections
      service_dependencies := acc.service_dependencies
      documentation := generate_documentation_summary repositories }

/-- C9: the summary builder is a pure, deterministic function of the record
list — equal inputs give equal outputs.  In this embedding the property holds
by construction: `generate_summary` admits a translation as a total function
of its argument alone, because the source consults no clock, randomness or
ambient state, never mutates its input, and every iteration order it relies
on (dict/`Counter` insertion order, stable sorting) is itself a function of
the input. -/
theorem c9_summary_pure :
    ∀ repos1 repos2 : List Repo, repos1 = repos2 →
      generate_summary repos1 = generate_summary repos2 :=
  fun _ _ h => congrArg generate_summary h

/-- A concrete record for the C9 witness. -/
def c9w_repo : Repo :=
  { initRepo ⟨5, "w", "g/w", some "main", "u"⟩ with scanned := true }

/-- Witness for C9: two calls on the same concrete list give the same output. -/
theorem c9_summary_pure_witness :
    generate_summary [c9w_repo] = generate_summary [c9w_repo] :=
  c9_summary_pure [c9w_repo] [c9w_repo] rfl

end GitlabAnalyzer
